import Mathlib

/-!
Shallow embedding of the RLRSA pursuit-game repository
(`environment.py`: class `CooperativeChickenEnv`; `a_star_agents.py`:
function `a_star_search`), together with theorems checking the
natural-language specification against it.

Positions are integer pairs `(row, col)` (`Int × Int`, since action deltas
may take an intended cell out of bounds).  Python's process-wide random
choices are modelled explicitly: `random.choice(candidates)` becomes
indexing by `k % candidates.length` for an arbitrary `k : Nat` (a uniform
index draw), and the random placement of `reset` becomes a predicate over
the placed positions.  `raise` is modelled with `Except String`.
-/

namespace Chicken

abbrev Pos := Int × Int

/-- Grid configuration of `CooperativeChickenEnv.__init__`:
`L` (rows), `H` (cols), internal walls, `max_episode_steps`. -/
structure Config where
  L : Nat
  H : Nat
  walls : List Pos
  max_episode_steps : Nat
deriving Repr, DecidableEq

/-- Mutable entity/turn state of the environment:
`agent1_pos`, `agent2_pos`, `chicken_pos`, `current_player_idx`,
`current_step_in_episode`. -/
structure State where
  agent1_pos : Pos
  agent2_pos : Pos
  chicken_pos : Pos
  current_player_idx : Int
  current_step_in_episode : Nat
deriving Repr, DecidableEq

/-- Action constants of `CooperativeChickenEnv`. -/
def ACTION_STAY : Nat := 0

def ACTION_NORTH : Nat := 1

def ACTION_SOUTH : Nat := 2

def ACTION_WEST : Nat := 3

def ACTION_EAST : Nat := 4

/-- `ACTION_DELTAS`, in the dict's (insertion) iteration order. -/
def ACTION_DELTAS : List (Nat × Pos) :=
  [(ACTION_STAY, (0, 0)),
   (ACTION_NORTH, (-1, 0)),
   (ACTION_SOUTH, (1, 0)),
   (ACTION_WEST, (0, -1)),
   (ACTION_EAST, (0, 1))]

/-- `_manhattan_distance`. -/
def manhattan_distance (p q : Pos) : Nat :=
  (p.1 - q.1).natAbs + (p.2 - q.2).natAbs

/-- `_is_valid_pos`: in bounds and not a wall. -/
def Config.is_valid_pos (g : Config) (p : Pos) : Bool :=
  0 ≤ p.1 && p.1 < (g.L : Int) && 0 ≤ p.2 && p.2 < (g.H : Int) &&
    !(g.walls.contains p)

/-!
Python's `list.sort(key=…, reverse=True)` is a stable descending sort.
A stable sort is determined by its comparison and the input order, so the
following stable descending insertion sort computes exactly the same list.
-/

/-- Stable descending insertion: `x` is placed before the first element
not strictly greater than it. -/
def insertDesc (lt : α → α → Bool) (x : α) : List α → List α
  | [] => [x]
  | y :: ys => if lt x y then y :: insertDesc lt x ys else x :: y :: ys

/-- Stable descending sort (same output as `list.sort(reverse=True)` with
strict comparison `lt` on the keys). -/
def sortDesc (lt : α → α → Bool) : List α → List α
  | [] => []
  | x :: xs => insertDesc lt x (sortDesc lt xs)

/-- A scored chicken move: `((nd1, nd2), next_pos)` as built in
`_chicken_move`. -/
abbrev Scored := (Nat × Nat) × Pos

/-- `valid_next_positions_deltas` of `_chicken_move` (next position paired
with its delta, filtered by validity, in `ACTION_DELTAS` order). -/
def valid_next_positions_deltas (g : Config) (c : Pos) : List (Pos × Pos) :=
  ACTION_DELTAS.filterMap fun ad =>
    let np : Pos := (c.1 + ad.2.1, c.2 + ad.2.2)
    if g.is_valid_pos np then some (np, ad.2) else none

/-- `scored_moves` of `_chicken_move`. -/
def scored_moves (g : Config) (c a1 a2 : Pos) : List Scored :=
  (valid_next_positions_deltas g c).map fun npd =>
    ((manhattan_distance npd.1 a1, manhattan_distance npd.1 a2), npd.1)

/-- `candidate_moves` of `_chicken_move`: the three sort-and-keep-best
branches, selected by comparing the chicken's current distances to the
two agents. -/
def candidate_moves (g : Config) (c a1 a2 : Pos) : List Scored :=
  let sm := scored_moves g c a1 a2
  let d1 := manhattan_distance c a1
  let d2 := manhattan_distance c a2
  if d1 < d2 then
    let sorted := sortDesc (fun x y : Scored => decide (x.1.1 < y.1.1)) sm
    match sorted with
    | [] => []
    | best :: _ => sorted.filter fun m => m.1.1 = best.1.1
  else if d2 < d1 then
    let sorted := sortDesc (fun x y : Scored => decide (x.1.2 < y.1.2)) sm
    match sorted with
    | [] => []
    | best :: _ => sorted.filter fun m => m.1.2 = best.1.2
  else
    let sorted := sortDesc
      (fun x y : Scored =>
        decide (x.1.1 < y.1.1 ∨ (x.1.1 = y.1.1 ∧ x.1.2 < y.1.2))) sm
    match sorted with
    | [] => []
    | best :: _ => sorted.filter fun m => m.1 = best.1

/-- `_chicken_move`: the chicken's new position, with the uniform random
tie-break `random.choice(candidate_moves)` modelled as indexing by
`k % length`.  Returns the unchanged position on the early guard
(`valid_next_positions_deltas` empty) or when `candidate_moves` is empty. -/
def chicken_move (g : Config) (c a1 a2 : Pos) (k : Nat) : Pos :=
  if (valid_next_positions_deltas g c).isEmpty then c
  else
    let cand := candidate_moves g c a1 a2
    if cand.isEmpty then c
    else (cand.getD (k % cand.length) (((0, 0), (0, 0)) : Scored)).2

/-- The result tuple of `CooperativeChickenEnv.step`: new state (carrying
the observation), reward, terminated, truncated, and the `info` dict
(`current_player_to_act` plus optional `status`). -/
structure StepOut where
  s : State
  reward : Int
  terminated : Bool
  truncated : Bool
  info_player : Int
  info_status : Option String
deriving Repr, DecidableEq

/-- `CooperativeChickenEnv.step`.  `k` models the random tie-break draw
inside `_chicken_move`; an unknown action key raises (`KeyError`), an
invalid `current_player_idx` raises (`ValueError`). -/
def step (g : Config) (s : State) (action : Nat) (k : Nat) :
    Except String StepOut :=
  if ¬ (s.current_player_idx = 0 ∨ s.current_player_idx = 1) then
    .error "Invalid current_player_idx. Must be 0 (Agent 1) or 1 (Agent 2)."
  else
    match ACTION_DELTAS.lookup action with
    | none => .error "KeyError"
    | some d =>
      let reward : Int := -1
      let before := if s.current_player_idx = 0 then s.agent1_pos else s.agent2_pos
      let np : Pos := (before.1 + d.1, before.2 + d.2)
      let s1 :=
        if g.is_valid_pos np then
          if s.current_player_idx = 0 then { s with agent1_pos := np }
          else { s with agent2_pos := np }
        else s
      if (s1.current_player_idx = 0 ∧ s1.agent1_pos = s1.chicken_pos) ∨
         (s1.current_player_idx = 1 ∧ s1.agent2_pos = s1.chicken_pos) then
        .ok ⟨s1, reward + 100, true, false, -1, some "capture"⟩
      else if s1.current_player_idx = 0 then
        let s2 := { s1 with current_player_idx := 1 }
        .ok ⟨s2, reward, false, false, s2.current_player_idx, none⟩
      else
        let s2 := { s1 with
          chicken_pos := chicken_move g s1.chicken_pos s1.agent1_pos s1.agent2_pos k,
          current_player_idx := 0,
          current_step_in_episode := s1.current_step_in_episode + 1 }
        let truncated := decide (s2.current_step_in_episode ≥ g.max_episode_steps)
        .ok ⟨s2, reward, false, truncated, s2.current_player_idx,
             if truncated then some "truncated" else none⟩


/-- The acting pursuer's position read by `step` (`environment.py`
line 166). -/
def acting_pos (s : State) : Pos :=
  if s.current_player_idx = 0 then s.agent1_pos else s.agent2_pos

/-- Intended next cell of the acting pursuer (`new_r, new_c`). -/
def intended_pos (s : State) (d : Pos) : Pos :=
  ((acting_pos s).1 + d.1, (acting_pos s).2 + d.2)

/-- Position of the acting pursuer after the move resolution of `step`
(an invalid intended cell is silently absorbed: bump into wall, stay
put). -/
def moved_pos (g : Config) (s : State) (d : Pos) : Pos :=
  if g.is_valid_pos (intended_pos s d) then intended_pos s d else acting_pos s

/-- All three entity positions are valid grid cells. -/
def ValidState (g : Config) (s : State) : Prop :=
  g.is_valid_pos s.agent1_pos = true ∧ g.is_valid_pos s.agent2_pos = true ∧
    g.is_valid_pos s.chicken_pos = true

/-- Engine states reachable from a `reset` by `step` calls.  `reset`
(`_place_entities`) draws three distinct non-wall (hence valid) cells at
random and starts with `current_player_idx = 0` and step counter `0`;
the modelled randomness makes it a predicate over the placement. -/
inductive Reachable (g : Config) : State → Prop
  | reset (a1 a2 c : Pos) (h1 : g.is_valid_pos a1 = true)
      (h2 : g.is_valid_pos a2 = true) (h3 : g.is_valid_pos c = true)
      (h12 : a1 ≠ a2) (h13 : a1 ≠ c) (h23 : a2 ≠ c) :
      Reachable g ⟨a1, a2, c, 0, 0⟩
  | step (s : State) (a k : Nat) (out : StepOut) (hs : Reachable g s)
      (h : step g s a k = .ok out) : Reachable g out.s

/-- Modelled from the spec: the chicken's legal resulting cells, "the
moves whose resulting cell is valid". -/
def spec_valid_results (g : Config) (c : Pos) : List Pos :=
  (ACTION_DELTAS.map fun ad => ((c.1 + ad.2.1, c.2 + ad.2.2) : Pos)).filter
    g.is_valid_pos

/-- Modelled from the spec (claim C3 / §4.4): the candidate set of the
target's move rule — among valid resulting cells, those maximizing the
resulting distance to the strictly closer pursuer, or the pair of
distances lexicographically when equidistant. -/
def spec_target_candidates (g : Config) (c a1 a2 : Pos) : List Pos :=
  let V := spec_valid_results g c
  let d1 := manhattan_distance c a1
  let d2 := manhattan_distance c a2
  if d1 < d2 then
    V.filter fun p =>
      decide (∀ q ∈ V, manhattan_distance q a1 ≤ manhattan_distance p a1)
  else if d2 < d1 then
    V.filter fun p =>
      decide (∀ q ∈ V, manhattan_distance q a2 ≤ manhattan_distance p a2)
  else
    V.filter fun p =>
      decide (∀ q ∈ V,
        toLex (manhattan_distance q a1, manhattan_distance q a2) ≤
          toLex (manhattan_distance p a1, manhattan_distance p a2))

/-!
Concrete instances used by witnesses and counterexamples: a 1×5 grid
(one row, five columns, no walls).
-/

/-- A 1×5 wall-free grid with a generous step limit. -/
def gEx : Config := ⟨1, 5, [], 100⟩

/-- A 1×5 wall-free grid with a step limit of one round. -/
def gTrunc : Config := ⟨1, 5, [], 1⟩

/-- Pursuer A at (0,0) adjacent to the target at (0,1); A to move. -/
def sPre : State := ⟨(0, 0), (0, 3), (0, 1), 0, 0⟩

/-- The state returned by the capture step from `sPre` (East): the
episode has ended, yet `current_player_idx` still reads 0. -/
def sEnded : State := ⟨(0, 1), (0, 3), (0, 1), 0, 0⟩

/-- Pursuer B already shares the target's cell (0,2); B to move. -/
def sShare : State := ⟨(0, 0), (0, 2), (0, 2), 1, 0⟩

/-- B to move, nobody adjacent; used to exhibit a truncation step. -/
def sRound : State := ⟨(0, 0), (0, 4), (0, 2), 1, 0⟩

/-- B to move; the target at (0,1) is equidistant from A (0,0) and
B (0,2), and its unique lexicographically best escape is East onto B's
cell. -/
def sOnto : State := ⟨(0, 0), (0, 2), (0, 1), 1, 0⟩

/-- The concrete result of the truncating step from `sRound` on
`gTrunc`. -/
def outRound : StepOut :=
  ⟨⟨(0, 0), (0, 4), (0, 3), 0, 1⟩, -1, false, true, 0, some "truncated"⟩

/-- `Node` of `a_star_agents.py`: position, parent link, the action that
led here, and the costs `g`, `h`, `f = g + h`. -/
inductive ANode : Type where
  | mk : Pos → Option ANode → Option Nat → Nat → Nat → Nat → ANode

/-- Equality of `ANode` is decidable (manual instance: the nested
`Option ANode` parent defeats the deriving handler). -/
def ANode.decEq : (a b : ANode) → Decidable (a = b)
  | .mk p1 q1 a1 g1 h1 f1, .mk p2 q2 a2 g2 h2 f2 => by
    have dq : Decidable (q1 = q2) := by
      cases q1 with
      | none =>
        cases q2 with
        | none => exact isTrue rfl
        | some y => exact isFalse (by simp)
      | some x =>
        cases q2 with
        | none => exact isFalse (by simp)
        | some y =>
          cases ANode.decEq x y with
          | isTrue h => exact isTrue (by rw [h])
          | isFalse h => exact isFalse (by simp [h])
    exact decidable_of_iff _
      (iff_of_eq (ANode.mk.injEq p1 q1 a1 g1 h1 f1 p2 q2 a2 g2 h2 f2)).symm

instance : DecidableEq ANode := ANode.decEq

/-- `Node.position`. -/
def ANode.position : ANode → Pos
  | .mk p _ _ _ _ _ => p

/-- `Node.parent`. -/
def ANode.parent : ANode → Option ANode
  | .mk _ par _ _ _ _ => par

/-- `Node.action_from_parent`. -/
def ANode.action_from_parent : ANode → Option Nat
  | .mk _ _ act _ _ _ => act

/-- `Node.g`. -/
def ANode.gcost : ANode → Nat
  | .mk _ _ _ gc _ _ => gc

/-- `Node.h`. -/
def ANode.hcost : ANode → Nat
  | .mk _ _ _ _ hc _ => hc

/-- `Node.f` (`__lt__` compares on it). -/
def ANode.fcost : ANode → Nat
  | .mk _ _ _ _ _ fc => fc

/-- Placeholder node for out-of-range list reads (never reached on the
in-bounds indices the heap code uses). -/
def dummyNode : ANode := .mk (0, 0) none none 0 0 0

/-!
CPython's `heapq` on a Python list, index for index: `_siftdown`,
`_siftup`, `heappush`, `heappop`, `heapify`.  `Node.__lt__` compares `f`.
-/

/-- `heapq._siftdown(heap, startpos, pos)` with `newitem = heap[pos]`
made explicit: bubble `newitem` up towards `startpos`.  The structural
`fuel` argument only bounds the loop: `pos` strictly decreases each
iteration, so any `fuel ≥ pos` gives the loop's exact behaviour. -/
def siftdownLoop : Nat → List ANode → Nat → Nat → ANode → List ANode
  | 0, heap, _, pos, newitem => heap.set pos newitem
  | fuel + 1, heap, startpos, pos, newitem =>
    if startpos < pos then
      if newitem.fcost < (heap.getD ((pos - 1) / 2) dummyNode).fcost then
        siftdownLoop fuel
          (heap.set pos (heap.getD ((pos - 1) / 2) dummyNode))
          startpos ((pos - 1) / 2) newitem
      else heap.set pos newitem
    else heap.set pos newitem

/-- `heapq.heappush`. -/
def heappush (heap : List ANode) (item : ANode) : List ANode :=
  siftdownLoop heap.length (heap ++ [item]) 0 heap.length item

/-- The child-chasing loop of `heapq._siftup`: move the smaller child up
until a leaf position is reached; returns the heap and the leaf index.
`pos` strictly increases and stays below `endpos`, so any
`fuel ≥ endpos - pos` gives the loop's exact behaviour. -/
def siftupLoop : Nat → List ANode → Nat → Nat → List ANode × Nat
  | 0, heap, _, pos => (heap, pos)
  | fuel + 1, heap, endpos, pos =>
    if 2 * pos + 1 < endpos then
      if 2 * pos + 1 + 1 < endpos ∧
          ¬ (heap.getD (2 * pos + 1) dummyNode).fcost <
            (heap.getD (2 * pos + 1 + 1) dummyNode).fcost then
        siftupLoop fuel (heap.set pos (heap.getD (2 * pos + 1 + 1) dummyNode))
          endpos (2 * pos + 1 + 1)
      else
        siftupLoop fuel (heap.set pos (heap.getD (2 * pos + 1) dummyNode))
          endpos (2 * pos + 1)
    else (heap, pos)

/-- `heapq._siftup(heap, pos)`. -/
def siftup (heap : List ANode) (pos : Nat) : List ANode :=
  let newitem := heap.getD pos dummyNode
  let hl := siftupLoop heap.length heap heap.length pos
  siftdownLoop hl.2 hl.1 pos hl.2 newitem

/-- `heapq.heappop`: `none` on an empty heap (Python would raise
`IndexError`; the search loop never pops an empty heap). -/
def heappop (heap : List ANode) : Option (ANode × List ANode) :=
  match heap.getLast? with
  | none => none
  | some lastelt =>
    let heap := heap.dropLast
    if heap.isEmpty then some (lastelt, heap)
    else some (heap.getD 0 dummyNode, siftup (heap.set 0 lastelt) 0)

/-- `heapq.heapify`: `_siftup` on `n/2 - 1, …, 0`. -/
def heapifyLoop (heap : List ANode) : Nat → List ANode
  | 0 => heap
  | j + 1 => heapifyLoop (siftup heap j) j

/-- `heapq.heapify`. -/
def heapify (heap : List ANode) : List ANode :=
  heapifyLoop heap (heap.length / 2)

/-- The open-list maintenance of `a_star_search`'s inner loop: find the
first entry with the neighbour's position (`Node.__eq__`); replace it
and re-heapify when the new path is strictly cheaper; push when the
position is absent. -/
def relax (open_list : List ANode) (nbr : ANode) : List ANode :=
  match open_list.findIdx? (fun n => n.position == nbr.position) with
  | some i =>
    if nbr.gcost < (open_list.getD i dummyNode).gcost then
      heapify (open_list.set i nbr)
    else open_list
  | none => heappush open_list nbr

/-- The neighbour loop of `a_star_search` over `ACTION_DELTAS`. -/
def expand (g : Config) (goal : Pos) (cur : ANode) (closed : List Pos)
    (open_list : List ANode) : List ANode :=
  ACTION_DELTAS.foldl (fun ol ad =>
    let np : Pos := (cur.position.1 + ad.2.1, cur.position.2 + ad.2.2)
    if ¬ g.is_valid_pos np then ol
    else if closed.contains np then ol
    else
      relax ol (.mk np (some cur) (some ad.1) (cur.gcost + 1)
        (manhattan_distance np goal)
        ((cur.gcost + 1) + manhattan_distance np goal))) open_list

/-- The `path` list of the reconstruction loop: actions from the popped
goal node back to (excluding) the start node, i.e. `path[-1]` is the
first action out of the start.  Every constructed child carries
`some action`. -/
def path_actions : ANode → List (Option Nat)
  | .mk _ none _ _ _ _ => []
  | .mk _ (some par) act _ _ _ => act :: path_actions par

/-- The `while open_list:` loop of `a_star_search`, with explicit fuel;
`none` means the fuel ran out (proved impossible when the fuel exceeds
the number of grid cells). -/
def a_star_loop (g : Config) (goal : Pos) :
    Nat → List ANode → List Pos → Option Nat
  | 0, _, _ => none
  | fuel + 1, open_list, closed =>
    match heappop open_list with
    | none => some ACTION_STAY
    | some (cur, open2) =>
      if cur.position = goal then
        let path := path_actions cur
        some (if path.isEmpty then
            match cur.action_from_parent with
            | some a => a
            | none => ACTION_STAY
          else ((path.getLast?.getD none).getD ACTION_STAY))
      else
        let closed2 := cur.position :: closed
        a_star_loop g goal fuel (expand g goal cur closed2 open2) closed2

/-- `a_star_search(start_pos, goal_pos, env)`: first action of an optimal
path, `ACTION_STAY` when already at the goal or when no path exists.
(The unused `action_map` dict of the source is omitted.)  The fuel
`L*H + 2` strictly exceeds the number of pops the loop can make. -/
def a_star_search (start_pos goal_pos : Pos) (g : Config) : Option Nat :=
  let start_node : ANode := .mk start_pos none none 0
    (manhattan_distance start_pos goal_pos)
    (manhattan_distance start_pos goal_pos)
  a_star_loop g goal_pos (g.L * g.H + 2) [start_node] []

/-- Modelled from the spec: a path of `n` moves (the five action deltas,
each landing on a valid cell) from `start` to a cell.  This is the
successor relation `a_star_search` explores. -/
inductive PathTo (g : Config) (start : Pos) : Pos → Nat → Prop
  | refl : PathTo g start start 0
  | snoc {p q : Pos} {n : Nat} : PathTo g start p n →
      (∃ ad ∈ ACTION_DELTAS, q = (p.1 + ad.2.1, p.2 + ad.2.2)) →
      g.is_valid_pos q = true → PathTo g start q (n + 1)

/-- Modelled from the spec: some obstacle-avoiding path exists. -/
def ReachableCell (g : Config) (start p : Pos) : Prop :=
  ∃ n, PathTo g start p n

/-- All grid cells of the `L × H` box, enumerated row-major. -/
def allCells (g : Config) : List Pos :=
  (List.range (g.L * g.H)).map fun n =>
    ((((n / g.H : Nat)) : Int), (((n % g.H : Nat)) : Int))

/-- Loop invariant of `a_star_loop` needed for termination and the
unreachable-goal analysis. -/
structure AStarInv (g : Config) (start : Pos) (open_list : List ANode)
    (closed : List Pos) : Prop where
  reach : ∀ nd ∈ open_list, ReachableCell g start nd.position
  ok : ∀ nd ∈ open_list, g.is_valid_pos nd.position = true ∨
    nd.position = start
  nodup : (open_list.map ANode.position).Nodup
  disj : ∀ nd ∈ open_list, nd.position ∉ closed
  closed_nodup : closed.Nodup
  closed_ok : ∀ p ∈ closed, g.is_valid_pos p = true ∨ p = start


/-- Shortest obstacle-avoiding path length (least move count). -/
noncomputable def distS (g : Config) (p q : Pos) : Nat :=
  sInf {n | PathTo g p q n}

/-- Well-formed A* node: the parent chain is a genuine path from
`start`, with the costs and actions the search records. -/
def ChainOK (g : Config) (start : Pos) : ANode → Prop
  | .mk p none act gc _ _ => p = start ∧ gc = 0 ∧ act = none
  | .mk p (some par) act gc _ _ =>
      ChainOK g start par ∧ gc = par.gcost + 1 ∧
      g.is_valid_pos p = true ∧
      (∃ ad ∈ ACTION_DELTAS,
        p = (par.position.1 + ad.2.1, par.position.2 + ad.2.2) ∧
        act = some ad.1)

/-- The `f`-value read at an index (out-of-range reads the placeholder). -/
def fAt (l : List ANode) (i : Nat) : Nat := (l.getD i dummyNode).fcost

/-- Binary-heap order on `f` for every parent-child pair whose parent
index is at least `k`. -/
def HeapFrom (l : List ANode) (k : Nat) : Prop :=
  ∀ i, 0 < i → i < l.length → k ≤ (i - 1) / 2 → fAt l ((i - 1) / 2) ≤ fAt l i

/-- The heap invariant `heapq` maintains. -/
def IsHeap (l : List ANode) : Prop := HeapFrom l 0

/-- Membership of `p` in the subtree rooted at `s` (parent chain reaches `s`). -/
inductive InSub (s : Nat) : Nat → Prop
  | base : InSub s s
  | up {p : Nat} : s < p → InSub s ((p - 1) / 2) → InSub s p

/-- Invariant of `_siftup`'s child-chasing loop with the hole at `q`:
every parent-child pair away from the hole is ordered (for parents at or
below `j` in tree order), and the hole's children dominate the hole's
parent. -/
def ChaseInv (l : List ANode) (j q : Nat) : Prop :=
  (∀ i, 0 < i → i < l.length → i ≠ q → (i - 1) / 2 ≠ q →
      j ≤ (i - 1) / 2 → fAt l ((i - 1) / 2) ≤ fAt l i) ∧
  (∀ c, c < l.length → (c - 1) / 2 = q → c ≠ q → j < q →
      fAt l ((q - 1) / 2) ≤ fAt l c)

/-- Full optimality invariant of `a_star_search`'s loop: the basic
invariant, heap order on the open list, well-formed parent chains with
`f = g + manhattan`, the start either expanded or still open at `g = 0`,
the goal never closed, and every closed cell fully expanded with
near-optimal recorded costs. -/
structure AStarFull (g : Config) (start goal : Pos) (open_list : List ANode)
    (closed : List Pos) : Prop where
  inv : AStarInv g start open_list closed
  heap : IsHeap open_list
  chains : ∀ nd ∈ open_list, ChainOK g start nd
  fok : ∀ nd ∈ open_list,
    nd.fcost = nd.gcost + manhattan_distance nd.position goal
  kstart : start ∈ closed ∨
    ∃ nd ∈ open_list, nd.position = start ∧ nd.gcost = 0
  gnc : goal ∉ closed
  cexp : ∀ p ∈ closed, ∀ ad ∈ ACTION_DELTAS,
    g.is_valid_pos (p.1 + ad.2.1, p.2 + ad.2.2) = true →
    (p.1 + ad.2.1, p.2 + ad.2.2) ∈ closed ∨
    ∃ nd ∈ open_list, nd.position = (p.1 + ad.2.1, p.2 + ad.2.2) ∧
      nd.gcost ≤ distS g start p + 1

/-- The obstacle-free 5×5 grid of the spec's optimality scenario. -/
def g55 : Config := ⟨5, 5, [], 100⟩

end Chicken

/-!
## Theorems

Evaluation lemmas for the three branches of `step`, then one theorem per
claim (with witnesses and counterexamples).
-/

namespace Chicken

/-- Evaluation of `step` in the capture branch: the acting pursuer's
resolved position coincides with the target's. -/
theorem step_eval_capture (g : Config) (s : State) (a k : Nat) (d : Pos)
    (hp : s.current_player_idx = 0 ∨ s.current_player_idx = 1)
    (hd : ACTION_DELTAS.lookup a = some d)
    (hc : moved_pos g s d = s.chicken_pos) :
    step g s a k = .ok ⟨(if s.current_player_idx = 0 then
        { s with agent1_pos := s.chicken_pos }
      else { s with agent2_pos := s.chicken_pos }),
      -1 + 100, true, false, -1, some "capture"⟩ := by
  obtain ⟨a1, a2, c, pl, n⟩ := s
  simp only [moved_pos, intended_pos, acting_pos] at hc
  unfold step
  rw [hd]
  rcases hp with hp | hp <;> simp only at hp <;> subst hp <;>
    norm_num at hc ⊢ <;>
    by_cases hv : g.is_valid_pos (a1.1 + d.1, a1.2 + d.2) <;>
    by_cases hv2 : g.is_valid_pos (a2.1 + d.1, a2.2 + d.2) <;>
    simp_all

/-- Evaluation of `step` for pursuer A's non-capturing move. -/
theorem step_eval_a (g : Config) (s : State) (a k : Nat) (d : Pos)
    (hp : s.current_player_idx = 0)
    (hd : ACTION_DELTAS.lookup a = some d)
    (hc : moved_pos g s d ≠ s.chicken_pos) :
    step g s a k =
      .ok ⟨{ s with agent1_pos := moved_pos g s d, current_player_idx := 1 },
        -1, false, false, 1, none⟩ := by
  obtain ⟨a1, a2, c, pl, n⟩ := s
  simp only at hp
  subst hp
  simp only [moved_pos, intended_pos, acting_pos] at hc ⊢
  unfold step
  rw [hd]
  norm_num at hc ⊢
  by_cases hv : g.is_valid_pos (a1.1 + d.1, a1.2 + d.2) <;> simp_all

/-- Evaluation of `step` for pursuer B's non-capturing move: the chicken
moves and the round counter advances. -/
theorem step_eval_b (g : Config) (s : State) (a k : Nat) (d : Pos)
    (hp : s.current_player_idx = 1)
    (hd : ACTION_DELTAS.lookup a = some d)
    (hc : moved_pos g s d ≠ s.chicken_pos) :
    step g s a k = .ok ⟨⟨s.agent1_pos, moved_pos g s d,
        chicken_move g s.chicken_pos s.agent1_pos (moved_pos g s d) k,
        0, s.current_step_in_episode + 1⟩, -1, false,
      decide (s.current_step_in_episode + 1 ≥ g.max_episode_steps), 0,
      if s.current_step_in_episode + 1 ≥ g.max_episode_steps then
        some "truncated" else none⟩ := by
  obtain ⟨a1, a2, c, pl, n⟩ := s
  simp only at hp
  subst hp
  simp only [moved_pos, intended_pos, acting_pos] at hc ⊢
  unfold step
  rw [hd]
  norm_num at hc ⊢
  by_cases hv : g.is_valid_pos (a2.1 + d.1, a2.2 + d.2) <;> simp_all

/-- A successful `step` implies the turn guard held and the action key
was found. -/
theorem step_ok_inv (g : Config) (s : State) (a k : Nat) (out : StepOut)
    (h : step g s a k = .ok out) :
    (s.current_player_idx = 0 ∨ s.current_player_idx = 1) ∧
      ∃ d, ACTION_DELTAS.lookup a = some d := by
  unfold step at h
  split at h
  · exact Except.noConfusion h
  next hpl =>
    refine ⟨not_not.mp hpl, ?_⟩
    cases hml : ACTION_DELTAS.lookup a with
    | none => rw [hml] at h; exact Except.noConfusion h
    | some d => exact ⟨d, rfl⟩

end Chicken

namespace Chicken

/-- C1: in a pursuer's turn, when the acting pursuer's position after
applying the action delta (a valid cell) equals the target's position,
`step` returns immediately with reward `-1 + 100 = 99`,
`terminated = true`, `truncated = false`, sentinel metadata, the target's
position unchanged (it does not move this cycle) and the other pursuer's
position unchanged (visible in the returned state record). -/
theorem capture_step_returns_immediately (g : Config) (s : State)
    (a k : Nat) (d : Pos)
    (hp : s.current_player_idx = 0 ∨ s.current_player_idx = 1)
    (hd : ACTION_DELTAS.lookup a = some d)
    (hv : g.is_valid_pos (intended_pos s d) = true)
    (hc : intended_pos s d = s.chicken_pos) :
    step g s a k = .ok ⟨(if s.current_player_idx = 0 then
        { s with agent1_pos := s.chicken_pos }
      else { s with agent2_pos := s.chicken_pos }),
      -1 + 100, true, false, -1, some "capture"⟩ := by
  apply step_eval_capture g s a k d hp hd
  have hm : moved_pos g s d = intended_pos s d := by simp [moved_pos, hv]
  rw [hm, hc]

/-- C1 witness: on the 1×5 grid, pursuer A at (0,0) moves East onto the
target at (0,1). -/
theorem capture_step_witness :
    step gEx sPre ACTION_EAST 0 = .ok ⟨(if sPre.current_player_idx = 0 then
        { sPre with agent1_pos := sPre.chicken_pos }
      else { sPre with agent2_pos := sPre.chicken_pos }),
      -1 + 100, true, false, -1, some "capture"⟩ :=
  capture_step_returns_immediately gEx sPre ACTION_EAST 0 (0, 1)
    (Or.inl rfl) rfl (by decide) (by decide)

/-- C4 counterexample: the engine does not track episode end in its own
state.  From `sPre`, moving East captures and returns the ended state
`sEnded` (with `current_player_idx` still 0); calling `step` again on
`sEnded` raises nothing and performs another full transition (even a
second capture), contradicting the claim that it raises an
`InvalidStateError`. -/
theorem step_after_episode_end_is_ok :
    step gEx sPre ACTION_EAST 0 =
      .ok ⟨sEnded, -1 + 100, true, false, -1, some "capture"⟩ ∧
    step gEx sEnded ACTION_STAY 0 =
      .ok ⟨sEnded, -1 + 100, true, false, -1, some "capture"⟩ := by
  exact ⟨rfl, rfl⟩

/-- C4 amended: `step` raises (`ValueError`) exactly when
`current_player_idx` is outside {0, 1} — a situation no reset/step
sequence produces — and otherwise, for any known action, it always
performs a transition and returns normally, even in states in which the
episode has already ended. -/
theorem step_raises_only_for_invalid_turn_index (g : Config) (s : State)
    (a k : Nat) :
    (¬ (s.current_player_idx = 0 ∨ s.current_player_idx = 1) →
      step g s a k =
        .error "Invalid current_player_idx. Must be 0 (Agent 1) or 1 (Agent 2).") ∧
    ((s.current_player_idx = 0 ∨ s.current_player_idx = 1) →
      ∀ d, ACTION_DELTAS.lookup a = some d → (step g s a k).isOk = true) := by
  constructor
  · intro hbad
    unfold step
    rw [if_pos hbad]
  · intro hp d hd
    by_cases hcap : moved_pos g s d = s.chicken_pos
    · rw [step_eval_capture g s a k d hp hd hcap]; rfl
    · rcases hp with hp | hp
      · rw [step_eval_a g s a k d hp hd hcap]; rfl
      · rw [step_eval_b g s a k d hp hd hcap]; rfl

/-- C4 witness: stepping from the already-ended state `sEnded` returns
normally. -/
theorem step_raises_witness : (step gEx sEnded ACTION_STAY 0).isOk = true :=
  (step_raises_only_for_invalid_turn_index gEx sEnded ACTION_STAY 0).2
    (Or.inl rfl) (0, 0) rfl

/-- C6: the round counter is unchanged on pursuer A's step and on any
capture-terminating step; on pursuer B's non-capturing step it increases
by exactly one, the step is truncating iff the incremented counter
reaches `max_episode_steps`, and the reward stays the plain step penalty
(no bonus); a truncating step has `terminated = false` by the
`out.terminated = false` hypothesis of that clause. -/
theorem round_counter_increment (g : Config) (s : State) (a k : Nat)
    (out : StepOut) (h : step g s a k = .ok out) :
    (s.current_player_idx = 0 →
      out.s.current_step_in_episode = s.current_step_in_episode) ∧
    (out.terminated = true →
      out.s.current_step_in_episode = s.current_step_in_episode) ∧
    (s.current_player_idx = 1 → out.terminated = false →
      out.s.current_step_in_episode = s.current_step_in_episode + 1 ∧
      (out.truncated = true ↔
        g.max_episode_steps ≤ s.current_step_in_episode + 1) ∧
      out.reward = -1) := by
  obtain ⟨hp, d, hd⟩ := step_ok_inv g s a k out h
  by_cases hcap : moved_pos g s d = s.chicken_pos
  · rw [step_eval_capture g s a k d hp hd hcap] at h
    simp only [Except.ok.injEq] at h
    subst h
    rcases hp with hp | hp <;> simp [hp]
  · rcases hp with hp | hp
    · rw [step_eval_a g s a k d hp hd hcap] at h
      simp only [Except.ok.injEq] at h
      subst h
      simp [hp]
    · rw [step_eval_b g s a k d hp hd hcap] at h
      simp only [Except.ok.injEq] at h
      subst h
      simp [hp, ge_iff_le]

/-- C6 witness: the truncating round step from `sRound` on the 1-round
grid. -/
theorem round_counter_witness :
    (sRound.current_player_idx = 0 →
      outRound.s.current_step_in_episode = sRound.current_step_in_episode) ∧
    (outRound.terminated = true →
      outRound.s.current_step_in_episode = sRound.current_step_in_episode) ∧
    (sRound.current_player_idx = 1 → outRound.terminated = false →
      outRound.s.current_step_in_episode =
        sRound.current_step_in_episode + 1 ∧
      (outRound.truncated = true ↔
        gTrunc.max_episode_steps ≤ sRound.current_step_in_episode + 1) ∧
      outRound.reward = -1) :=
  round_counter_increment gTrunc sRound ACTION_STAY 0 outRound (by rfl)

end Chicken

namespace Chicken

/-- C7 counterexample: from `sShare` (pursuer B already on the target's
cell), action North has an invalid intended cell (out of bounds), the
position does not change and no error is raised — but the returned
reward is `-1 + 100 = 99`, not the bare step penalty `-1` the claim
states, because the capture check still fires on the unchanged cell. -/
theorem illegal_move_capture_reward :
    gEx.is_valid_pos (intended_pos sShare (-1, 0)) = false ∧
    ACTION_DELTAS.lookup ACTION_NORTH = some (-1, 0) ∧
    step gEx sShare ACTION_NORTH 0 =
      .ok ⟨sShare, -1 + 100, true, false, -1, some "capture"⟩ :=
  ⟨rfl, rfl, rfl⟩

/-- C7 amended: an action whose intended cell is invalid leaves both
pursuers' positions unchanged and raises no error, and the returned
reward is the step penalty `-1` — except when the acting pursuer already
occupies the target's cell, in which case the capture bonus is still
added (`-1 + 100`). -/
theorem illegal_move_absorbed (g : Config) (s : State) (a k : Nat) (d : Pos)
    (hp : s.current_player_idx = 0 ∨ s.current_player_idx = 1)
    (hd : ACTION_DELTAS.lookup a = some d)
    (hinv : g.is_valid_pos (intended_pos s d) = false) :
    (step g s a k).toOption.map
        (fun o => (o.s.agent1_pos, o.s.agent2_pos, o.reward)) =
      some (s.agent1_pos, s.agent2_pos,
        if acting_pos s = s.chicken_pos then -1 + 100 else -1) := by
  have hmv : moved_pos g s d = acting_pos s := by simp [moved_pos, hinv]
  by_cases hcap : acting_pos s = s.chicken_pos
  · rw [step_eval_capture g s a k d hp hd (by rw [hmv, hcap])]
    rcases hp with hp | hp
    · have h1 : s.agent1_pos = s.chicken_pos := by
        simpa [acting_pos, hp] using hcap
      simp [hp, acting_pos, h1]
      exact ⟨_, rfl, rfl, rfl, rfl⟩
    · have h2 : s.agent2_pos = s.chicken_pos := by
        simpa [acting_pos, hp] using hcap
      simp [hp, acting_pos, h2]
      exact ⟨_, rfl, rfl, rfl, rfl⟩
  · have hcap' : moved_pos g s d ≠ s.chicken_pos := by rw [hmv]; exact hcap
    rcases hp with hp | hp
    · have h1 : ¬ (s.agent1_pos = s.chicken_pos) := by
        simpa [acting_pos, hp] using hcap
      rw [step_eval_a g s a k d hp hd hcap']
      simp [hp, hmv, acting_pos, h1]
      exact ⟨_, rfl, rfl, rfl, rfl⟩
    · have h2 : ¬ (s.agent2_pos = s.chicken_pos) := by
        simpa [acting_pos, hp] using hcap
      rw [step_eval_b g s a k d hp hd hcap']
      simp [hp, hmv, acting_pos, h2]
      exact ⟨_, rfl, rfl, rfl, rfl⟩

/-- C7 witness: the amended statement at the concrete bump-into-wall
input from `sShare`. -/
theorem illegal_move_witness :
    (step gEx sShare ACTION_NORTH 0).toOption.map
        (fun o => (o.s.agent1_pos, o.s.agent2_pos, o.reward)) =
      some (sShare.agent1_pos, sShare.agent2_pos,
        if acting_pos sShare = sShare.chicken_pos then -1 + 100 else -1) :=
  illegal_move_absorbed gEx sShare ACTION_NORTH 0 (-1, 0) (Or.inr rfl)
    rfl rfl

/-- C9 counterexample: the truncating step from `sRound` on the 1-round
grid ends the episode (`truncated = true`) yet reports
`current_player_to_act = 0` (pursuer A's index), not the `-1`
sentinel. -/
theorem truncation_metadata_not_sentinel :
    step gTrunc sRound ACTION_STAY 0 = .ok outRound ∧
    outRound.truncated = true ∧ outRound.info_player = 0 :=
  ⟨rfl, rfl, rfl⟩

/-- C9 amended: only capture-terminating steps return the `-1` sentinel
(with status "capture"); truncating steps instead report pursuer A's
index 0 as the next player, with status "truncated". -/
theorem ended_step_metadata (g : Config) (s : State) (a k : Nat)
    (out : StepOut) (h : step g s a k = .ok out) :
    (out.terminated = true →
      out.info_player = -1 ∧ out.info_status = some "capture") ∧
    (out.truncated = true → out.terminated = false ∧
      out.info_player = 0 ∧ out.info_status = some "truncated") := by
  obtain ⟨hp, d, hd⟩ := step_ok_inv g s a k out h
  by_cases hcap : moved_pos g s d = s.chicken_pos
  · rw [step_eval_capture g s a k d hp hd hcap] at h
    simp only [Except.ok.injEq] at h
    subst h
    simp
  · rcases hp with hp | hp
    · rw [step_eval_a g s a k d hp hd hcap] at h
      simp only [Except.ok.injEq] at h
      subst h
      simp
    · rw [step_eval_b g s a k d hp hd hcap] at h
      simp only [Except.ok.injEq] at h
      subst h
      by_cases ht : g.max_episode_steps ≤ s.current_step_in_episode + 1 <;>
        simp [ht]

/-- C9 witness: the amended metadata statement at the concrete
truncating step. -/
theorem ended_step_metadata_witness :
    (outRound.terminated = true →
      outRound.info_player = -1 ∧ outRound.info_status = some "capture") ∧
    (outRound.truncated = true → outRound.terminated = false ∧
      outRound.info_player = 0 ∧ outRound.info_status = some "truncated") :=
  ended_step_metadata gTrunc sRound ACTION_STAY 0 outRound (by rfl)

/-- C10: the target's automatic move never ends the episode.
(1) Any terminating step is a capture by the acting pursuer: the target
is unchanged and the acting pursuer sits on it.  (2) Concretely, from
`sOnto` the target's avoidance move puts it on pursuer B's occupied
cell (candidates are not filtered against pursuer positions) and the
step returns `terminated = false`.  (3) A pursuer that acts with Stay
while sharing the target's cell terminates the episode with the capture
bonus. -/
theorem target_move_never_ends_episode :
    (∀ (g : Config) (s : State) (a k : Nat) (out : StepOut),
      step g s a k = .ok out → out.terminated = true →
      out.s.chicken_pos = s.chicken_pos ∧
      (s.current_player_idx = 0 → out.s.agent1_pos = out.s.chicken_pos) ∧
      (s.current_player_idx = 1 → out.s.agent2_pos = out.s.chicken_pos)) ∧
    (step gEx sOnto ACTION_STAY 0 =
      .ok ⟨⟨(0, 0), (0, 2), (0, 2), 0, 1⟩, -1, false, false, 0, none⟩) ∧
    (∀ (g : Config) (s : State) (k : Nat),
      (s.current_player_idx = 0 ∨ s.current_player_idx = 1) →
      acting_pos s = s.chicken_pos →
      (step g s ACTION_STAY k).toOption.map
          (fun o => (o.terminated, o.reward)) = some (true, -1 + 100)) := by
  refine ⟨?_, by rfl, ?_⟩
  · intro g s a k out h hterm
    obtain ⟨hp, d, hd⟩ := step_ok_inv g s a k out h
    by_cases hcap : moved_pos g s d = s.chicken_pos
    · rw [step_eval_capture g s a k d hp hd hcap] at h
      simp only [Except.ok.injEq] at h
      subst h
      rcases hp with hp | hp <;> simp [hp]
    · rcases hp with hp | hp
      · rw [step_eval_a g s a k d hp hd hcap] at h
        simp only [Except.ok.injEq] at h
        subst h
        simp at hterm
      · rw [step_eval_b g s a k d hp hd hcap] at h
        simp only [Except.ok.injEq] at h
        subst h
        simp at hterm
  · intro g s k hp hshare
    have hstay : ACTION_DELTAS.lookup ACTION_STAY = some ((0, 0) : Pos) := rfl
    have hmv : moved_pos g s ((0, 0) : Pos) = s.chicken_pos := by
      unfold moved_pos intended_pos
      rw [hshare]
      simp [hshare]
    rw [step_eval_capture g s ACTION_STAY k (0, 0) hp hstay hmv]
    rfl

/-- C10 witness: clause (3) applied at the shared-cell state `sShare`
with a Stay action. -/
theorem target_move_witness :
    (step gEx sShare ACTION_STAY 0).toOption.map
        (fun o => (o.terminated, o.reward)) = some (true, -1 + 100) :=
  target_move_never_ends_episode.2.2 gEx sShare 0 (Or.inr rfl) rfl

end Chicken

namespace Chicken

/-- `insertDesc` inserts: the result is a permutation of consing. -/
theorem insertDesc_perm (lt : α → α → Bool) (x : α) (l : List α) :
    (insertDesc lt x l).Perm (x :: l) := by
  induction l with
  | nil => simp [insertDesc]
  | cons y ys ih =>
    unfold insertDesc
    by_cases h : lt x y
    · rw [if_pos h]
      exact (ih.cons y).trans (List.Perm.swap x y ys)
    · rw [if_neg h]

/-- `sortDesc` permutes its input. -/
theorem sortDesc_perm (lt : α → α → Bool) (l : List α) :
    (sortDesc lt l).Perm l := by
  induction l with
  | nil => simp [sortDesc]
  | cons x xs ih => exact (insertDesc_perm lt x (sortDesc lt xs)).trans (ih.cons x)

/-- Every entry of `valid_next_positions_deltas` is a valid cell. -/
theorem mem_valid_next_valid (g : Config) (c : Pos) {npd : Pos × Pos}
    (h : npd ∈ valid_next_positions_deltas g c) :
    g.is_valid_pos npd.1 = true := by
  unfold valid_next_positions_deltas at h
  simp only [List.mem_filterMap] at h
  obtain ⟨ad, _, had⟩ := h
  by_cases hv : g.is_valid_pos (c.1 + ad.2.1, c.2 + ad.2.2) = true
  · simp only [hv, if_true] at had
    cases had
    exact hv
  · simp only [Bool.not_eq_true] at hv
    simp [hv] at had

/-- Every scored move records a valid cell. -/
theorem mem_scored_valid (g : Config) (c a1 a2 : Pos) {m : Scored}
    (h : m ∈ scored_moves g c a1 a2) : g.is_valid_pos m.2 = true := by
  unfold scored_moves at h
  simp only [List.mem_map] at h
  obtain ⟨npd, hmem, rfl⟩ := h
  exact mem_valid_next_valid g c hmem

/-- Candidate moves are drawn from the scored moves. -/
theorem mem_candidate_mem_scored (g : Config) (c a1 a2 : Pos) {m : Scored}
    (h : m ∈ candidate_moves g c a1 a2) : m ∈ scored_moves g c a1 a2 := by
  unfold candidate_moves at h
  simp only [] at h
  split at h
  · revert h
    cases hs : sortDesc (fun x y : Scored => decide (x.1.1 < y.1.1))
        (scored_moves g c a1 a2) with
    | nil => simp
    | cons b t =>
      intro h
      have hmem := (List.mem_filter.mp h).1
      rw [← hs] at hmem
      exact ((sortDesc_perm _ _).mem_iff).mp hmem
  split at h
  · revert h
    cases hs : sortDesc (fun x y : Scored => decide (x.1.2 < y.1.2))
        (scored_moves g c a1 a2) with
    | nil => simp
    | cons b t =>
      intro h
      have hmem := (List.mem_filter.mp h).1
      rw [← hs] at hmem
      exact ((sortDesc_perm _ _).mem_iff).mp hmem
  · revert h
    cases hs : sortDesc (fun x y : Scored =>
        decide (x.1.1 < y.1.1 ∨ (x.1.1 = y.1.1 ∧ x.1.2 < y.1.2)))
        (scored_moves g c a1 a2) with
    | nil => simp
    | cons b t =>
      intro h
      have hmem := (List.mem_filter.mp h).1
      rw [← hs] at hmem
      exact ((sortDesc_perm _ _).mem_iff).mp hmem

/-- The chicken's move always lands on a valid cell, provided its current
cell is valid. -/
theorem chicken_move_valid (g : Config) (c a1 a2 : Pos) (k : Nat)
    (hc : g.is_valid_pos c = true) :
    g.is_valid_pos (chicken_move g c a1 a2 k) = true := by
  unfold chicken_move
  split
  · exact hc
  · by_cases hcand : (candidate_moves g c a1 a2).isEmpty
    · simp [hcand, hc]
    · simp only [hcand, Bool.false_eq_true, if_false]
      have hlen : 0 < (candidate_moves g c a1 a2).length := by
        cases hl : candidate_moves g c a1 a2 with
        | nil => rw [hl] at hcand; simp [List.isEmpty] at hcand
        | cons b t => simp
      have hidx : k % (candidate_moves g c a1 a2).length <
          (candidate_moves g c a1 a2).length := Nat.mod_lt _ hlen
      rw [List.getD_eq_getElem _ _ hidx]
      exact mem_scored_valid g c a1 a2
        (mem_candidate_mem_scored g c a1 a2 (List.getElem_mem hidx))

/-- The resolved move of the acting pursuer is valid whenever its current
position is. -/
theorem moved_pos_valid (g : Config) (s : State) (d : Pos)
    (hok : g.is_valid_pos (acting_pos s) = true) :
    g.is_valid_pos (moved_pos g s d) = true := by
  unfold moved_pos
  split
  next hv => exact hv
  next => exact hok

/-- C5: every state reachable from a reset through `step` calls keeps all
three entity positions on valid (in-bounds, non-wall) cells. -/
theorem reachable_states_valid (g : Config) (s : State)
    (h : Reachable g s) : ValidState g s := by
  induction h with
  | reset a1 a2 c h1 h2 h3 h12 h13 h23 => exact ⟨h1, h2, h3⟩
  | step s' a k out hs hstep ih =>
    obtain ⟨hp, d, hd⟩ := step_ok_inv g s' a k out hstep
    obtain ⟨iv1, iv2, iv3⟩ := ih
    have hact : g.is_valid_pos (acting_pos s') = true := by
      unfold acting_pos
      split <;> assumption
    by_cases hcap : moved_pos g s' d = s'.chicken_pos
    · rw [step_eval_capture g s' a k d hp hd hcap] at hstep
      simp only [Except.ok.injEq] at hstep
      subst hstep
      rcases hp with hp | hp <;> simp only [hp, if_pos rfl, if_neg] <;>
        first
        | exact ⟨iv3, iv2, iv3⟩
        | (rw [if_neg (by simp [hp])]; exact ⟨iv1, iv3, iv3⟩)
    · rcases hp with hp | hp
      · rw [step_eval_a g s' a k d hp hd hcap] at hstep
        simp only [Except.ok.injEq] at hstep
        subst hstep
        exact ⟨moved_pos_valid g s' d hact, iv2, iv3⟩
      · rw [step_eval_b g s' a k d hp hd hcap] at hstep
        simp only [Except.ok.injEq] at hstep
        subst hstep
        exact ⟨iv1, moved_pos_valid g s' d hact,
          chicken_move_valid g s'.chicken_pos s'.agent1_pos
            (moved_pos g s' d) k iv3⟩

/-- C5 witness: validity of a concrete reachable state (a legal
placement on the 1×5 grid). -/
theorem reachable_states_valid_witness : ValidState gEx sPre :=
  reachable_states_valid gEx sPre
    (Reachable.reset (0, 0) (0, 3) (0, 1) (by decide) (by decide)
      (by decide) (by decide) (by decide) (by decide))

end Chicken

namespace Chicken

theorem insertDesc_pairwise {α β : Type*} [LinearOrder β] (key : α → β)
    (x : α) (l : List α)
    (hl : l.Pairwise fun a b => key b ≤ key a) :
    (insertDesc (fun a b => decide (key a < key b)) x l).Pairwise
      fun a b => key b ≤ key a := by
  induction l with
  | nil => simp [insertDesc]
  | cons y ys ih =>
    rcases List.pairwise_cons.mp hl with ⟨hy, hys⟩
    unfold insertDesc
    by_cases h : key x < key y
    · rw [if_pos (by simpa using h)]
      refine List.pairwise_cons.mpr ⟨?_, ih hys⟩
      intro b hb
      rcases List.mem_cons.mp ((insertDesc_perm _ x ys).mem_iff.mp hb) with
        rfl | hbys
      · exact le_of_lt h
      · exact hy b hbys
    · rw [if_neg (by simpa using h)]
      refine List.pairwise_cons.mpr ⟨?_, hl⟩
      intro b hb
      rcases List.mem_cons.mp hb with rfl | hbys
      · exact not_lt.mp h
      · exact le_trans (hy b hbys) (not_lt.mp h)

theorem sortDesc_pairwise {α β : Type*} [LinearOrder β] (key : α → β)
    (l : List α) :
    (sortDesc (fun a b => decide (key a < key b)) l).Pairwise
      fun a b => key b ≤ key a := by
  induction l with
  | nil => simp [sortDesc]
  | cons x xs ih => exact insertDesc_pairwise key x _ ih

theorem sortDesc_head_max {α β : Type*} [LinearOrder β] (key : α → β)
    (l : List α) {b : α} {t : List α}
    (hs : sortDesc (fun a b => decide (key a < key b)) l = b :: t) :
    ∀ m ∈ l, key m ≤ key b := by
  intro m hm
  have hmem : m ∈ b :: t := by
    rw [← hs]
    exact (sortDesc_perm _ l).mem_iff.mpr hm
  rcases List.mem_cons.mp hmem with rfl | hmt
  · exact le_refl _
  · have hp := sortDesc_pairwise key l
    rw [hs] at hp
    exact (List.pairwise_cons.mp hp).1 m hmt

theorem sortDesc_nil_iff {α : Type*} (lt : α → α → Bool) (l : List α) :
    sortDesc lt l = [] ↔ l = [] := by
  constructor
  · intro h
    have hperm := sortDesc_perm lt l
    rw [h] at hperm
    exact hperm.symm.eq_nil
  · rintro rfl
    rfl

theorem mem_filter_best_iff {α β : Type*} [LinearOrder β] (key : α → β)
    (l : List α) {b : α} {t : List α}
    (hs : sortDesc (fun a b => decide (key a < key b)) l = b :: t)
    (m : α) :
    m ∈ (b :: t).filter (fun x => decide (key x = key b)) ↔
      m ∈ l ∧ ∀ q ∈ l, key q ≤ key m := by
  have hbl : b ∈ l := by
    have hb : b ∈ b :: t := List.mem_cons_self b t
    rw [← hs] at hb
    exact (sortDesc_perm _ l).mem_iff.mp hb
  constructor
  · intro hm
    obtain ⟨hmem, heq⟩ := List.mem_filter.mp hm
    have hml : m ∈ l := by
      rw [← hs] at hmem
      exact (sortDesc_perm _ l).mem_iff.mp hmem
    have heq' : key m = key b := of_decide_eq_true heq
    exact ⟨hml, fun q hq => heq' ▸ sortDesc_head_max key l hs q hq⟩
  · rintro ⟨hml, hmax⟩
    refine List.mem_filter.mpr ⟨?_, ?_⟩
    · rw [← hs]
      exact (sortDesc_perm _ l).mem_iff.mpr hml
    · exact decide_eq_true
        (le_antisymm (sortDesc_head_max key l hs m hml) (hmax b hbl))

theorem map_fst_valid_next (g : Config) (c : Pos) :
    (valid_next_positions_deltas g c).map Prod.fst = spec_valid_results g c := by
  unfold valid_next_positions_deltas spec_valid_results
  generalize ACTION_DELTAS = l
  induction l with
  | nil => rfl
  | cons ad l ih =>
    simp only [List.filterMap_cons, List.map_cons, List.filter_cons]
    by_cases hv : g.is_valid_pos (c.1 + ad.2.1, c.2 + ad.2.2) = true
    · simp only [hv, if_true, List.map_cons, ih]
    · simp only [Bool.not_eq_true] at hv
      simp only [hv, Bool.false_eq_true, if_false, ih]

theorem scored_eq_map_score (g : Config) (c a1 a2 : Pos) :
    scored_moves g c a1 a2 = (spec_valid_results g c).map
      (fun p => (((manhattan_distance p a1, manhattan_distance p a2), p) :
        Scored)) := by
  unfold scored_moves
  rw [← map_fst_valid_next g c, List.map_map]
  rfl

end Chicken
namespace Chicken

theorem mem_map_snd_iff {β : Type*} [LinearOrder β]
    (V : List Pos) (sm : List Scored) (key : Scored → β) (score : Pos → Scored)
    (hsm : sm = V.map score) (hsnd : ∀ p, (score p).2 = p)
    (cand : List Scored)
    (hiff : ∀ m, m ∈ cand ↔ m ∈ sm ∧ ∀ q ∈ sm, key q ≤ key m)
    (p : Pos) :
    p ∈ cand.map Prod.snd ↔
      p ∈ V ∧ ∀ q ∈ V, key (score q) ≤ key (score p) := by
  simp only [List.mem_map]
  constructor
  · rintro ⟨m, hm, rfl⟩
    obtain ⟨hmsm, hmax⟩ := (hiff m).mp hm
    subst hsm
    obtain ⟨pm, hpmV, rfl⟩ := List.mem_map.mp hmsm
    rw [hsnd pm]
    exact ⟨hpmV, fun q hq => hmax (score q) (List.mem_map_of_mem _ hq)⟩
  · rintro ⟨hpV, hmax⟩
    refine ⟨score p, (hiff (score p)).mpr ⟨?_, ?_⟩, hsnd p⟩
    · rw [hsm]
      exact List.mem_map_of_mem _ hpV
    · intro q hq
      rw [hsm] at hq
      obtain ⟨pq, hpqV, rfl⟩ := List.mem_map.mp hq
      exact hmax pq hpqV

/-- The comparator Python uses in the equidistant branch is the strict
lexicographic order on the score pair. -/
theorem lex_comparator_eq :
    (fun x y : Scored =>
        decide (x.1.1 < y.1.1 ∨ (x.1.1 = y.1.1 ∧ x.1.2 < y.1.2))) =
      (fun x y : Scored =>
        decide ((fun m : Scored => toLex m.1) x <
          (fun m : Scored => toLex m.1) y)) := by
  funext x y
  exact decide_eq_decide.mpr (Prod.Lex.lt_iff x.1 y.1).symm

theorem lex_filter_eq (b : Scored) :
    (fun m : Scored => decide (m.1 = b.1)) =
      (fun m : Scored =>
        decide ((fun m : Scored => toLex m.1) m =
          (fun m : Scored => toLex m.1) b)) := by
  funext m
  exact decide_eq_decide.mpr toLex_inj.symm

/-- Scored-level membership characterisation of `candidate_moves`:
exactly the scored moves maximizing the branch key. -/
theorem mem_candidate_moves_iff (g : Config) (c a1 a2 : Pos) (m : Scored) :
    m ∈ candidate_moves g c a1 a2 ↔
      (m ∈ scored_moves g c a1 a2 ∧
        (if manhattan_distance c a1 < manhattan_distance c a2 then
          ∀ q ∈ scored_moves g c a1 a2, q.1.1 ≤ m.1.1
        else if manhattan_distance c a2 < manhattan_distance c a1 then
          ∀ q ∈ scored_moves g c a1 a2, q.1.2 ≤ m.1.2
        else
          ∀ q ∈ scored_moves g c a1 a2, toLex q.1 ≤ toLex m.1)) := by
  unfold candidate_moves
  simp only []
  by_cases h1 : manhattan_distance c a1 < manhattan_distance c a2
  · rw [if_pos h1, if_pos h1]
    cases hs : sortDesc (fun x y : Scored => decide (x.1.1 < y.1.1))
        (scored_moves g c a1 a2) with
    | nil =>
      have hsm : scored_moves g c a1 a2 = [] := (sortDesc_nil_iff _ _).mp hs
      simp [hsm]
    | cons b t =>
      exact mem_filter_best_iff (fun m : Scored => m.1.1)
        (scored_moves g c a1 a2) hs m
  rw [if_neg h1, if_neg h1]
  by_cases h2 : manhattan_distance c a2 < manhattan_distance c a1
  · rw [if_pos h2, if_pos h2]
    cases hs : sortDesc (fun x y : Scored => decide (x.1.2 < y.1.2))
        (scored_moves g c a1 a2) with
    | nil =>
      have hsm : scored_moves g c a1 a2 = [] := (sortDesc_nil_iff _ _).mp hs
      simp [hsm]
    | cons b t =>
      exact mem_filter_best_iff (fun m : Scored => m.1.2)
        (scored_moves g c a1 a2) hs m
  · rw [if_neg h2, if_neg h2, lex_comparator_eq]
    cases hs : sortDesc (fun x y : Scored =>
        decide ((fun m : Scored => toLex m.1) x <
          (fun m : Scored => toLex m.1) y)) (scored_moves g c a1 a2) with
    | nil =>
      have hsm : scored_moves g c a1 a2 = [] := (sortDesc_nil_iff _ _).mp hs
      simp [hsm]
    | cons b t =>
      change m ∈ List.filter (fun m : Scored => decide (m.1 = b.1)) (b :: t) ↔ _
      rw [lex_filter_eq b]
      exact mem_filter_best_iff (fun m : Scored => toLex m.1)
        (scored_moves g c a1 a2) hs m

end Chicken
namespace Chicken

theorem spec_valid_results_nodup (g : Config) (c : Pos) :
    (spec_valid_results g c).Nodup := by
  unfold spec_valid_results
  refine List.Nodup.filter _ (List.Nodup.map_on ?_ (by decide))
  intro x hx y hy hxy
  rw [Prod.mk.injEq] at hxy
  have key : ∀ a ∈ ACTION_DELTAS, ∀ b ∈ ACTION_DELTAS, a.2 = b.2 → a = b := by
    decide
  refine key x hx y hy (Prod.ext_iff.mpr ⟨?_, ?_⟩)
  · omega
  · omega

theorem scored_moves_nodup (g : Config) (c a1 a2 : Pos) :
    (scored_moves g c a1 a2).Nodup := by
  rw [scored_eq_map_score]
  refine List.Nodup.map_on ?_ (spec_valid_results_nodup g c)
  intro x _ y _ hxy
  exact congrArg Prod.snd hxy

theorem candidate_moves_nodup (g : Config) (c a1 a2 : Pos) :
    (candidate_moves g c a1 a2).Nodup := by
  have hsm : (scored_moves g c a1 a2).Nodup := scored_moves_nodup g c a1 a2
  unfold candidate_moves
  simp only []
  split
  · cases hs : sortDesc (fun x y : Scored => decide (x.1.1 < y.1.1))
        (scored_moves g c a1 a2) with
    | nil => simp
    | cons b t =>
      refine List.Nodup.filter _ ?_
      rw [← hs]
      exact ((sortDesc_perm _ _).nodup_iff).mpr hsm
  split
  · cases hs : sortDesc (fun x y : Scored => decide (x.1.2 < y.1.2))
        (scored_moves g c a1 a2) with
    | nil => simp
    | cons b t =>
      refine List.Nodup.filter _ ?_
      rw [← hs]
      exact ((sortDesc_perm _ _).nodup_iff).mpr hsm
  · cases hs : sortDesc (fun x y : Scored =>
        decide (x.1.1 < y.1.1 ∨ (x.1.1 = y.1.1 ∧ x.1.2 < y.1.2)))
        (scored_moves g c a1 a2) with
    | nil => simp
    | cons b t =>
      refine List.Nodup.filter _ ?_
      rw [← hs]
      exact ((sortDesc_perm _ _).nodup_iff).mpr hsm

theorem candidates_map_snd_nodup (g : Config) (c a1 a2 : Pos) :
    ((candidate_moves g c a1 a2).map Prod.snd).Nodup := by
  refine List.Nodup.map_on ?_ (candidate_moves_nodup g c a1 a2)
  intro x hx y hy hxy
  have hx' := mem_candidate_mem_scored g c a1 a2 hx
  have hy' := mem_candidate_mem_scored g c a1 a2 hy
  rw [scored_eq_map_score] at hx' hy'
  obtain ⟨px, _, rfl⟩ := List.mem_map.mp hx'
  obtain ⟨py, _, rfl⟩ := List.mem_map.mp hy'
  simp only at hxy
  subst hxy
  rfl

theorem spec_target_candidates_nodup (g : Config) (c a1 a2 : Pos) :
    (spec_target_candidates g c a1 a2).Nodup := by
  unfold spec_target_candidates
  simp only []
  split
  · exact List.Nodup.filter _ (spec_valid_results_nodup g c)
  split
  · exact List.Nodup.filter _ (spec_valid_results_nodup g c)
  · exact List.Nodup.filter _ (spec_valid_results_nodup g c)

end Chicken
namespace Chicken

theorem valid_next_empty_iff (g : Config) (c : Pos) :
    (valid_next_positions_deltas g c).isEmpty = true ↔
      spec_valid_results g c = [] := by
  rw [List.isEmpty_iff, ← map_fst_valid_next g c, List.map_eq_nil_iff]

theorem candidate_moves_ne_nil (g : Config) (c a1 a2 : Pos)
    (hV : spec_valid_results g c ≠ []) :
    candidate_moves g c a1 a2 ≠ [] := by
  have hsm : scored_moves g c a1 a2 ≠ [] := by
    rw [scored_eq_map_score]
    simpa [List.map_eq_nil_iff] using hV
  unfold candidate_moves
  simp only []
  split
  · cases hs : sortDesc (fun x y : Scored => decide (x.1.1 < y.1.1))
        (scored_moves g c a1 a2) with
    | nil => exact absurd ((sortDesc_nil_iff _ _).mp hs) hsm
    | cons b t =>
      exact List.ne_nil_of_mem
        (List.mem_filter.mpr ⟨List.mem_cons_self b t, decide_eq_true rfl⟩)
  split
  · cases hs : sortDesc (fun x y : Scored => decide (x.1.2 < y.1.2))
        (scored_moves g c a1 a2) with
    | nil => exact absurd ((sortDesc_nil_iff _ _).mp hs) hsm
    | cons b t =>
      exact List.ne_nil_of_mem
        (List.mem_filter.mpr ⟨List.mem_cons_self b t, decide_eq_true rfl⟩)
  · cases hs : sortDesc (fun x y : Scored =>
        decide (x.1.1 < y.1.1 ∨ (x.1.1 = y.1.1 ∧ x.1.2 < y.1.2)))
        (scored_moves g c a1 a2) with
    | nil => exact absurd ((sortDesc_nil_iff _ _).mp hs) hsm
    | cons b t =>
      exact List.ne_nil_of_mem
        (List.mem_filter.mpr ⟨List.mem_cons_self b t, decide_eq_true rfl⟩)

theorem chicken_move_mem (g : Config) (c a1 a2 : Pos) (k : Nat)
    (hV : spec_valid_results g c ≠ []) :
    chicken_move g c a1 a2 k ∈ (candidate_moves g c a1 a2).map Prod.snd := by
  have hvne : (valid_next_positions_deltas g c).isEmpty = false := by
    rw [Bool.eq_false_iff]
    intro hemp
    exact hV ((valid_next_empty_iff g c).mp hemp)
  have hcne : candidate_moves g c a1 a2 ≠ [] :=
    candidate_moves_ne_nil g c a1 a2 hV
  have hcemp : (candidate_moves g c a1 a2).isEmpty = false := by
    rw [Bool.eq_false_iff]
    intro hemp
    exact hcne (List.isEmpty_iff.mp hemp)
  have hlen : 0 < (candidate_moves g c a1 a2).length :=
    List.length_pos.mpr hcne
  have hidx : k % (candidate_moves g c a1 a2).length <
      (candidate_moves g c a1 a2).length := Nat.mod_lt _ hlen
  unfold chicken_move
  simp only [hvne, Bool.false_eq_true, if_false, hcemp,
    List.getD_eq_getElem _ _ hidx]
  exact List.mem_map_of_mem _ (List.getElem_mem hidx)

theorem chicken_move_surj (g : Config) (c a1 a2 : Pos)
    (hV : spec_valid_results g c ≠ []) (p : Pos)
    (hp : p ∈ (candidate_moves g c a1 a2).map Prod.snd) :
    ∃ k, chicken_move g c a1 a2 k = p := by
  have hvne : (valid_next_positions_deltas g c).isEmpty = false := by
    rw [Bool.eq_false_iff]
    intro hemp
    exact hV ((valid_next_empty_iff g c).mp hemp)
  have hcne : candidate_moves g c a1 a2 ≠ [] :=
    candidate_moves_ne_nil g c a1 a2 hV
  have hcemp : (candidate_moves g c a1 a2).isEmpty = false := by
    rw [Bool.eq_false_iff]
    intro hemp
    exact hcne (List.isEmpty_iff.mp hemp)
  obtain ⟨m, hm, rfl⟩ := List.mem_map.mp hp
  obtain ⟨i, hi, hget⟩ := List.mem_iff_getElem.mp hm
  refine ⟨i, ?_⟩
  have hmod : i % (candidate_moves g c a1 a2).length = i := Nat.mod_eq_of_lt hi
  unfold chicken_move
  simp only [hvne, Bool.false_eq_true, if_false, hcemp, hmod]
  rw [List.getD_eq_getElem _ _ hi, hget]

end Chicken
namespace Chicken

/-- Position-level: the candidate positions computed by the source are
exactly the spec-described candidate set. -/
theorem mem_candidates_snd_iff_spec (g : Config) (c a1 a2 : Pos) (p : Pos) :
    p ∈ (candidate_moves g c a1 a2).map Prod.snd ↔
      p ∈ spec_target_candidates g c a1 a2 := by
  have hscore : scored_moves g c a1 a2 = (spec_valid_results g c).map
      (fun p => (((manhattan_distance p a1, manhattan_distance p a2), p) :
        Scored)) := scored_eq_map_score g c a1 a2
  unfold spec_target_candidates
  simp only []
  by_cases h1 : manhattan_distance c a1 < manhattan_distance c a2
  · rw [if_pos h1]
    rw [mem_map_snd_iff (spec_valid_results g c) (scored_moves g c a1 a2)
      (fun m : Scored => m.1.1) _ hscore (fun _ => rfl)
      (candidate_moves g c a1 a2)
      (fun m => by rw [mem_candidate_moves_iff, if_pos h1]) p]
    simp only [List.mem_filter, decide_eq_true_eq]
  rw [if_neg h1]
  by_cases h2 : manhattan_distance c a2 < manhattan_distance c a1
  · rw [if_pos h2]
    rw [mem_map_snd_iff (spec_valid_results g c) (scored_moves g c a1 a2)
      (fun m : Scored => m.1.2) _ hscore (fun _ => rfl)
      (candidate_moves g c a1 a2)
      (fun m => by rw [mem_candidate_moves_iff, if_neg h1, if_pos h2]) p]
    simp only [List.mem_filter, decide_eq_true_eq]
  · rw [if_neg h2]
    rw [mem_map_snd_iff (spec_valid_results g c) (scored_moves g c a1 a2)
      (fun m : Scored => toLex m.1) _ hscore (fun _ => rfl)
      (candidate_moves g c a1 a2)
      (fun m => by rw [mem_candidate_moves_iff, if_neg h1, if_neg h2]) p]
    simp only [List.mem_filter, decide_eq_true_eq]

/-- C3: the target's move routine keeps exactly the spec-described
candidate set (same positions, both duplicate-free), and — whenever any
valid move exists — the move chosen under the modelled uniform draw is
always one of those candidates, and every candidate is chosen for some
draw.  With a duplicate-free candidate list, uniform indexing is a
uniform draw over the candidate set. -/
theorem target_move_candidates_spec (g : Config) (c a1 a2 : Pos) :
    (∀ p : Pos, p ∈ (candidate_moves g c a1 a2).map Prod.snd ↔
        p ∈ spec_target_candidates g c a1 a2) ∧
    ((candidate_moves g c a1 a2).map Prod.snd).Nodup ∧
    (spec_target_candidates g c a1 a2).Nodup ∧
    (spec_valid_results g c ≠ [] →
      (∀ k, chicken_move g c a1 a2 k ∈ spec_target_candidates g c a1 a2) ∧
      (∀ p ∈ spec_target_candidates g c a1 a2,
        ∃ k, chicken_move g c a1 a2 k = p)) := by
  refine ⟨mem_candidates_snd_iff_spec g c a1 a2,
    candidates_map_snd_nodup g c a1 a2,
    spec_target_candidates_nodup g c a1 a2, ?_⟩
  intro hV
  constructor
  · intro k
    exact (mem_candidates_snd_iff_spec g c a1 a2 _).mp
      (chicken_move_mem g c a1 a2 k hV)
  · intro p hp
    exact chicken_move_surj g c a1 a2 hV p
      ((mem_candidates_snd_iff_spec g c a1 a2 p).mpr hp)

/-- C3 witness: the final clause applied to the equidistant state
`sOnto` (target at (0,1) between the pursuers), whose candidate set is
the single cell (0,2). -/
theorem target_move_candidates_witness :
    (∀ k, chicken_move gEx (0, 1) (0, 0) (0, 2) k ∈
      spec_target_candidates gEx (0, 1) (0, 0) (0, 2)) ∧
    (∀ p ∈ spec_target_candidates gEx (0, 1) (0, 0) (0, 2),
      ∃ k, chicken_move gEx (0, 1) (0, 0) (0, 2) k = p) :=
  (target_move_candidates_spec gEx (0, 1) (0, 0) (0, 2)).2.2.2 (by decide)

end Chicken

namespace Chicken

/-- Replacing index `i` trades the old element for the new one in the
count of any value. -/
theorem count_set_add {α : Type*} [DecidableEq α] (l : List α) (i : Nat)
    (a x : α) (hi : i < l.length) :
    (l.set i a).count x + (if l[i] = x then 1 else 0) =
      l.count x + (if a = x then 1 else 0) := by
  induction l generalizing i with
  | nil => simp at hi
  | cons y ys ih =>
    cases i with
    | zero =>
      simp only [List.set_cons_zero, List.count_cons, List.getElem_cons_zero]
      split_ifs <;> simp_all
    | succ j =>
      have hj : j < ys.length := by simpa using hi
      have := ih j hj
      simp only [List.set_cons_succ, List.count_cons,
        List.getElem_cons_succ]
      split_ifs at this ⊢ <;> first | omega | (simp_all; omega) | simp_all

theorem siftdownLoop_length (fuel : Nat) (heap : List ANode)
    (startpos pos : Nat) (newitem : ANode) :
    (siftdownLoop fuel heap startpos pos newitem).length = heap.length := by
  induction fuel generalizing heap pos with
  | zero => simp [siftdownLoop]
  | succ n ih =>
    rw [siftdownLoop]
    by_cases h1 : startpos < pos
    · rw [if_pos h1]
      by_cases h2 : newitem.fcost <
          (heap.getD ((pos - 1) / 2) dummyNode).fcost
      · rw [if_pos h2]
        exact (ih _ _).trans (by simp)
      · rw [if_neg h2]
        simp
    · rw [if_neg h1]
      simp

/-- `_siftdown` permutes the heap-with-`newitem`-written. -/
theorem siftdownLoop_perm (fuel : Nat) (heap : List ANode)
    (startpos pos : Nat) (newitem : ANode) (hpos : pos < heap.length) :
    (siftdownLoop fuel heap startpos pos newitem).Perm
      (heap.set pos newitem) := by
  induction fuel generalizing heap pos with
  | zero => simp [siftdownLoop]
  | succ n ih =>
    rw [siftdownLoop]
    by_cases h1 : startpos < pos
    · rw [if_pos h1]
      by_cases h2 : newitem.fcost <
          (heap.getD ((pos - 1) / 2) dummyNode).fcost
      · rw [if_pos h2]
        have hpl : (pos - 1) / 2 < heap.length := by omega
        have hpl' : (pos - 1) / 2 <
            (heap.set pos (heap.getD ((pos - 1) / 2) dummyNode)).length := by
          simpa using hpl
        refine (ih _ _ hpl').trans ?_
        rw [List.perm_iff_count]
        intro x
        have e1 := count_set_add
          (heap.set pos (heap.getD ((pos - 1) / 2) dummyNode))
          ((pos - 1) / 2) newitem x hpl'
        have e2 := count_set_add heap pos
          (heap.getD ((pos - 1) / 2) dummyNode) x hpos
        have e3 := count_set_add heap pos newitem x hpos
        have e4 : (heap.set pos
            (heap.getD ((pos - 1) / 2) dummyNode))[(pos - 1) / 2] =
            heap.getD ((pos - 1) / 2) dummyNode := by
          rw [List.getElem_set_ne (by omega)]
          exact (List.getD_eq_getElem heap dummyNode hpl).symm
        rw [e4] at e1
        split_ifs at e1 e2 e3 <;> omega
      · rw [if_neg h2]
    · rw [if_neg h1]

theorem siftupLoop_length (fuel : Nat) (heap : List ANode)
    (endpos pos : Nat) :
    (siftupLoop fuel heap endpos pos).1.length = heap.length := by
  induction fuel generalizing heap pos with
  | zero => simp [siftupLoop]
  | succ n ih =>
    rw [siftupLoop]
    by_cases h : 2 * pos + 1 < endpos
    · rw [if_pos h]
      by_cases h2 : 2 * pos + 1 + 1 < endpos ∧
          ¬ (heap.getD (2 * pos + 1) dummyNode).fcost <
            (heap.getD (2 * pos + 1 + 1) dummyNode).fcost
      · rw [if_pos h2]
        exact (ih _ _).trans (by simp)
      · rw [if_neg h2]
        exact (ih _ _).trans (by simp)
    · rw [if_neg h]

theorem siftupLoop_pos_lt (fuel : Nat) (heap : List ANode)
    (endpos pos : Nat) (hpos : pos < endpos) :
    (siftupLoop fuel heap endpos pos).2 < endpos := by
  induction fuel generalizing heap pos with
  | zero => simpa [siftupLoop] using hpos
  | succ n ih =>
    rw [siftupLoop]
    by_cases h : 2 * pos + 1 < endpos
    · rw [if_pos h]
      by_cases h2 : 2 * pos + 1 + 1 < endpos ∧
          ¬ (heap.getD (2 * pos + 1) dummyNode).fcost <
            (heap.getD (2 * pos + 1 + 1) dummyNode).fcost
      · rw [if_pos h2]
        exact ih _ _ (by omega)
      · rw [if_neg h2]
        exact ih _ _ (by omega)
    · rw [if_neg h]
      exact hpos

/-- The child-chasing loop duplicates the final slot's value and loses
the original value at `pos`, counting-wise. -/
theorem siftupLoop_count (fuel : Nat) (heap : List ANode) (endpos pos : Nat) :
    endpos = heap.length → pos < endpos → ∀ x : ANode,
    (siftupLoop fuel heap endpos pos).1.count x +
        (if heap.getD pos dummyNode = x then 1 else 0) =
      heap.count x +
        (if (siftupLoop fuel heap endpos pos).1.getD
            (siftupLoop fuel heap endpos pos).2 dummyNode = x then 1 else 0) := by
  induction fuel generalizing heap pos with
  | zero =>
    intro hend hpos x
    simp [siftupLoop]
  | succ n ih =>
    intro hend hpos x
    rw [siftupLoop]
    by_cases h : 2 * pos + 1 < endpos
    · rw [if_pos h]
      by_cases h2 : 2 * pos + 1 + 1 < endpos ∧
          ¬ (heap.getD (2 * pos + 1) dummyNode).fcost <
            (heap.getD (2 * pos + 1 + 1) dummyNode).fcost
      · rw [if_pos h2]
        have hlen : 2 * pos + 1 + 1 < heap.length := by omega
        have hplen : pos < heap.length := by omega
        have := ih (heap.set pos (heap.getD (2 * pos + 1 + 1) dummyNode))
          (2 * pos + 1 + 1) (by simpa using hend) (by omega) x
        have e2 := count_set_add heap pos
          (heap.getD (2 * pos + 1 + 1) dummyNode) x hplen
        have e4 : (heap.set pos
            (heap.getD (2 * pos + 1 + 1) dummyNode)).getD
            (2 * pos + 1 + 1) dummyNode =
            heap.getD (2 * pos + 1 + 1) dummyNode := by
          simp [List.getD_eq_getElem?_getD,
            List.getElem?_set_ne (show pos ≠ 2 * pos + 1 + 1 by omega)]
        rw [e4] at this
        rw [List.getD_eq_getElem _ _ hplen]
        split_ifs at this e2 ⊢ <;> omega
      · rw [if_neg h2]
        have hlen : 2 * pos + 1 < heap.length := by omega
        have hplen : pos < heap.length := by omega
        have := ih (heap.set pos (heap.getD (2 * pos + 1) dummyNode))
          (2 * pos + 1) (by simpa using hend) (by omega) x
        have e2 := count_set_add heap pos
          (heap.getD (2 * pos + 1) dummyNode) x hplen
        have e4 : (heap.set pos (heap.getD (2 * pos + 1) dummyNode)).getD
            (2 * pos + 1) dummyNode = heap.getD (2 * pos + 1) dummyNode := by
          simp [List.getD_eq_getElem?_getD,
            List.getElem?_set_ne (show pos ≠ 2 * pos + 1 by omega)]
        rw [e4] at this
        rw [List.getD_eq_getElem _ _ hplen]
        split_ifs at this e2 ⊢ <;> omega
    · rw [if_neg h]

/-- `_siftup` preserves the heap's multiset. -/
theorem siftup_perm (heap : List ANode) (pos : Nat)
    (hpos : pos < heap.length) :
    (siftup heap pos).Perm heap := by
  have hl := siftupLoop_length heap.length heap heap.length pos
  have hp2 := siftupLoop_pos_lt heap.length heap heap.length pos hpos
  have hlt : (siftupLoop heap.length heap heap.length pos).2 <
      (siftupLoop heap.length heap heap.length pos).1.length := by
    rw [hl]
    exact hp2
  have hperm := siftdownLoop_perm
    (siftupLoop heap.length heap heap.length pos).2
    (siftupLoop heap.length heap heap.length pos).1 pos
    (siftupLoop heap.length heap heap.length pos).2
    (heap.getD pos dummyNode) hlt
  simp only [siftup]
  rw [List.perm_iff_count]
  intro x
  rw [hperm.count_eq]
  have e1 := count_set_add (siftupLoop heap.length heap heap.length pos).1
    (siftupLoop heap.length heap heap.length pos).2
    (heap.getD pos dummyNode) x hlt
  have hc := siftupLoop_count heap.length heap heap.length pos rfl hpos x
  rw [List.getD_eq_getElem _ _ hlt] at hc
  split_ifs at hc e1 ⊢ <;> omega

theorem siftup_length (heap : List ANode) (pos : Nat) :
    (siftup heap pos).length = heap.length := by
  simp only [siftup]
  rw [siftdownLoop_length, siftupLoop_length]

/-- `heappush` adds exactly the pushed item. -/
theorem heappush_perm (heap : List ANode) (item : ANode) :
    (heappush heap item).Perm (item :: heap) := by
  unfold heappush
  have hlen : heap.length < (heap ++ [item]).length := by simp
  refine (siftdownLoop_perm _ _ 0 _ item hlen).trans ?_
  rw [List.perm_iff_count]
  intro x
  have e1 := count_set_add (heap ++ [item]) heap.length item x hlen
  have e2 : (heap ++ [item])[heap.length] = item := by
    simp
  rw [e2] at e1
  have e3 : (heap ++ [item]).count x =
      heap.count x + (if item = x then 1 else 0) := by
    simp [List.count_append, List.count_singleton]
  have e4 : (item :: heap).count x =
      heap.count x + (if item = x then 1 else 0) := by
    simp [List.count_cons]
  split_ifs at e1 e3 e4 <;> omega

theorem heappush_length (heap : List ANode) (item : ANode) :
    (heappush heap item).length = heap.length + 1 := by
  unfold heappush
  rw [siftdownLoop_length]
  simp

/-- `heappop` removes exactly the returned item. -/
theorem heappop_perm (heap : List ANode) (c : ANode) (h' : List ANode)
    (h : heappop heap = some (c, h')) : (c :: h').Perm heap := by
  unfold heappop at h
  cases hl : heap.getLast? with
  | none => rw [hl] at h; exact Option.noConfusion h
  | some lastelt =>
    rw [hl] at h
    dsimp only at h
    have hne : heap ≠ [] := by
      intro hemp
      rw [hemp] at hl
      exact Option.noConfusion hl
    have hsplit : heap.dropLast ++ [lastelt] = heap := by
      conv_rhs => rw [← List.dropLast_append_getLast hne]
      rw [List.getLast?_eq_getLast heap hne] at hl
      cases hl
      rfl
    by_cases hemp : heap.dropLast.isEmpty
    · rw [if_pos hemp] at h
      cases h
      rw [List.isEmpty_iff] at hemp
      rw [← hsplit, hemp]
      exact List.Perm.refl _
    · rw [if_neg hemp] at h
      cases h
      have hdlen : 0 < heap.dropLast.length := by
        rw [List.isEmpty_iff] at hemp
        exact List.length_pos.mpr hemp
      rw [List.perm_iff_count]
      intro x
      have hsp := siftup_perm (heap.dropLast.set 0 lastelt) 0
        (by simpa using hdlen)
      rw [List.count_cons, hsp.count_eq]
      have e1 := count_set_add heap.dropLast 0 lastelt x hdlen
      have e2 : heap.count x = heap.dropLast.count x +
          (if lastelt = x then 1 else 0) := by
        rw [← hsplit]
        simp [List.count_append, List.count_singleton]
      have e3 : heap.dropLast.getD 0 dummyNode = heap.dropLast[0] :=
        List.getD_eq_getElem _ _ hdlen
      rw [e3]
      split_ifs at e1 e2 ⊢ <;> simp_all [beq_iff_eq] <;> omega

/-- `heappop` returns `none` exactly on the empty heap. -/
theorem heappop_eq_none_iff (heap : List ANode) :
    heappop heap = none ↔ heap = [] := by
  unfold heappop
  cases hl : heap.getLast? with
  | none => simpa using List.getLast?_eq_none_iff.mp hl
  | some lastelt =>
    constructor
    · intro hc
      by_cases hemp : heap.dropLast.isEmpty <;> simp [hemp] at hc
    · rintro rfl
      exact Option.noConfusion hl

theorem heapifyLoop_perm (heap : List ANode) (i : Nat)
    (hi : i ≤ heap.length) : (heapifyLoop heap i).Perm heap := by
  induction i generalizing heap with
  | zero => exact List.Perm.refl _
  | succ j ih =>
    unfold heapifyLoop
    have hj : j < heap.length := by omega
    have hperm := siftup_perm heap j hj
    have hlen : (siftup heap j).length = heap.length := siftup_length heap j
    exact (ih (siftup heap j) (by omega)).trans hperm

/-- `heapify` preserves the multiset. -/
theorem heapify_perm (heap : List ANode) : (heapify heap).Perm heap := by
  unfold heapify
  exact heapifyLoop_perm heap _ (by omega)

/-- C8 (start already at goal): the first pop is the start node, whose
reconstruction path is empty and whose `action_from_parent` is `None`,
so the search returns Stay. -/
theorem a_star_search_at_goal (p : Pos) (g : Config) :
    a_star_search p p g = some ACTION_STAY := by
  unfold a_star_search a_star_loop
  simp [heappop, path_actions, ANode.position, ANode.action_from_parent]

theorem mem_allCells_of_valid {g : Config} {p : Pos}
    (h : g.is_valid_pos p = true) : p ∈ allCells g := by
  simp only [Config.is_valid_pos, Bool.and_eq_true, decide_eq_true_eq] at h
  obtain ⟨⟨⟨⟨hr0, hrL⟩, hc0⟩, hcH⟩, -⟩ := h
  have h1 : p.1.toNat < g.L := by omega
  have h2 : p.2.toNat < g.H := by omega
  refine List.mem_map.mpr ⟨p.1.toNat * g.H + p.2.toNat,
    List.mem_range.mpr ?_, ?_⟩
  · calc p.1.toNat * g.H + p.2.toNat < p.1.toNat * g.H + g.H := by omega
      _ = (p.1.toNat + 1) * g.H := by ring
      _ ≤ g.L * g.H := Nat.mul_le_mul_right _ (by omega)
  · have hH : 0 < g.H := by omega
    have hdiv : (p.1.toNat * g.H + p.2.toNat) / g.H = p.1.toNat := by
      rw [Nat.mul_comm, Nat.mul_add_div hH]
      simp [Nat.div_eq_of_lt h2]
    have hmod : (p.1.toNat * g.H + p.2.toNat) % g.H = p.2.toNat := by
      rw [Nat.mul_comm, Nat.mul_add_mod]
      exact Nat.mod_eq_of_lt h2
    rw [hdiv, hmod]
    have e1 : ((p.1.toNat : Int)) = p.1 := Int.toNat_of_nonneg hr0
    have e2 : ((p.2.toNat : Int)) = p.2 := Int.toNat_of_nonneg hc0
    rw [e1, e2]

theorem allCells_length (g : Config) : (allCells g).length = g.L * g.H := by
  simp [allCells]

/-- Cardinality bound: a duplicate-free list of valid-or-start cells has
at most `L*H + 1` entries. -/
theorem closed_length_le (g : Config) (start : Pos) (closed : List Pos)
    (hnd : closed.Nodup)
    (hok : ∀ p ∈ closed, g.is_valid_pos p = true ∨ p = start) :
    closed.length ≤ g.L * g.H + 1 := by
  have hsub : closed ⊆ start :: allCells g := by
    intro p hp
    rcases hok p hp with hv | rfl
    · exact List.mem_cons_of_mem _ (mem_allCells_of_valid hv)
    · exact List.mem_cons_self _ _
  have := (hnd.subperm hsub).length_le
  simpa [allCells_length] using this

theorem set_getElem_self_eq {α : Type*} (l : List α) (i : Nat)
    (h : i < l.length) : l.set i l[i] = l := by
  apply List.ext_getElem?
  intro n
  rw [List.getElem?_set]
  split_ifs with h1 h2 <;>
    first
    | (subst h1; exact (List.getElem?_eq_getElem h).symm)
    | rfl
    | omega

/-- `relax` preserves the open-list invariants, given an already-valid,
not-yet-closed, reachable neighbour. -/
theorem relax_inv (g : Config) (start : Pos) (open_list : List ANode)
    (closed : List Pos) (nbr : ANode)
    (hinv : AStarInv g start open_list closed)
    (hr : ReachableCell g start nbr.position)
    (hv : g.is_valid_pos nbr.position = true)
    (hc : nbr.position ∉ closed) :
    AStarInv g start (relax open_list nbr) closed := by
  unfold relax
  cases hf : open_list.findIdx? (fun n => n.position == nbr.position) with
  | some i =>
    dsimp only
    obtain ⟨hi, hpi, -⟩ := List.findIdx?_eq_some_iff_getElem.mp hf
    have hpos : open_list[i].position = nbr.position := by
      simpa [beq_iff_eq] using hpi
    by_cases hg : nbr.gcost < (open_list.getD i dummyNode).gcost
    · rw [if_pos hg]
      have hmem : ∀ nd ∈ heapify (open_list.set i nbr),
          nd ∈ open_list ∨ nd = nbr := by
        intro nd hnd
        exact List.mem_or_eq_of_mem_set ((heapify_perm _).mem_iff.mp hnd)
      have hmap : (heapify (open_list.set i nbr)).map ANode.position |>.Perm
          ((open_list.map ANode.position)) := by
        have h1 := (heapify_perm (open_list.set i nbr)).map ANode.position
        rw [List.map_set] at h1
        have h2 : ((open_list.map ANode.position).set i nbr.position) =
            open_list.map ANode.position := by
          have hi2 : i < (open_list.map ANode.position).length := by
            simpa using hi
          have : nbr.position = (open_list.map ANode.position)[i] := by
            simp [hpos.symm]
          rw [this]
          exact set_getElem_self_eq _ _ hi2
        rw [h2] at h1
        exact h1
      refine ⟨?_, ?_, ?_, ?_, hinv.closed_nodup, hinv.closed_ok⟩
      · intro nd hnd
        rcases hmem nd hnd with h | rfl
        · exact hinv.reach nd h
        · exact hr
      · intro nd hnd
        rcases hmem nd hnd with h | rfl
        · exact hinv.ok nd h
        · exact Or.inl hv
      · exact hmap.nodup_iff.mpr hinv.nodup
      · intro nd hnd
        rcases hmem nd hnd with h | rfl
        · exact hinv.disj nd h
        · exact hc
    · rw [if_neg hg]
      exact hinv
  | none =>
    dsimp only
    have hnone := List.findIdx?_eq_none_iff.mp hf
    have hmem : ∀ nd ∈ heappush open_list nbr,
        nd ∈ open_list ∨ nd = nbr := by
      intro nd hnd
      rcases List.mem_cons.mp ((heappush_perm _ _).mem_iff.mp hnd) with
        rfl | h
      · exact Or.inr rfl
      · exact Or.inl h
    refine ⟨?_, ?_, ?_, ?_, hinv.closed_nodup, hinv.closed_ok⟩
    · intro nd hnd
      rcases hmem nd hnd with h | rfl
      · exact hinv.reach nd h
      · exact hr
    · intro nd hnd
      rcases hmem nd hnd with h | rfl
      · exact hinv.ok nd h
      · exact Or.inl hv
    · have h1 := (heappush_perm open_list nbr).map ANode.position
      refine h1.nodup_iff.mpr ?_
      refine List.Nodup.cons ?_ hinv.nodup
      intro hmemp
      obtain ⟨nd, hnd, hpe⟩ := List.mem_map.mp hmemp
      have := hnone nd hnd
      simp [beq_iff_eq] at this
      exact this hpe
    · intro nd hnd
      rcases hmem nd hnd with h | rfl
      · exact hinv.disj nd h
      · exact hc

/-- The neighbour fold preserves the invariants, for any sublist of the
action table. -/
theorem expand_fold_inv (g : Config) (start goal : Pos) (cur : ANode)
    (closed : List Pos) (hcur : ReachableCell g start cur.position) :
    ∀ (l : List (Nat × Pos)), (∀ ad ∈ l, ad ∈ ACTION_DELTAS) →
    ∀ (open_list : List ANode), AStarInv g start open_list closed →
    AStarInv g start
      (l.foldl (fun ol ad =>
        let np : Pos := (cur.position.1 + ad.2.1, cur.position.2 + ad.2.2)
        if ¬ g.is_valid_pos np then ol
        else if closed.contains np then ol
        else
          relax ol (.mk np (some cur) (some ad.1) (cur.gcost + 1)
            (manhattan_distance np goal)
            ((cur.gcost + 1) + manhattan_distance np goal))) open_list)
      closed := by
  intro l
  induction l with
  | nil => intro _ open_list hinv; exact hinv
  | cons ad tl ih =>
    intro hmem open_list hinv
    rw [List.foldl_cons]
    refine ih (fun x hx => hmem x (List.mem_cons_of_mem _ hx)) _ ?_
    by_cases hv : g.is_valid_pos
        (cur.position.1 + ad.2.1, cur.position.2 + ad.2.2) = true
    · rw [if_neg (by simp [hv])]
      by_cases hcl : closed.contains
          (cur.position.1 + ad.2.1, cur.position.2 + ad.2.2)
      · rw [if_pos hcl]
        exact hinv
      · rw [if_neg hcl]
        refine relax_inv g start open_list closed _ hinv ?_ ?_ ?_
        · obtain ⟨n, hp⟩ := hcur
          exact ⟨n + 1, hp.snoc ⟨ad, hmem ad (List.mem_cons_self _ _),
            rfl⟩ hv⟩
        · exact hv
        · intro hmm
          exact hcl (List.elem_eq_true_of_mem hmm)
    · rw [if_pos (by simp [hv])]
      exact hinv

/-- `expand` preserves the invariants. -/
theorem expand_inv (g : Config) (start goal : Pos) (cur : ANode)
    (closed : List Pos) (open_list : List ANode)
    (hcur : ReachableCell g start cur.position)
    (hinv : AStarInv g start open_list closed) :
    AStarInv g start (expand g goal cur closed open_list) closed :=
  expand_fold_inv g start goal cur closed hcur ACTION_DELTAS
    (fun _ h => h) open_list hinv

/-- If the goal is unreachable, the loop (given enough fuel) exhausts the
frontier and returns Stay. -/
theorem a_star_loop_no_path (g : Config) (start goal : Pos)
    (hnr : ¬ ReachableCell g start goal) :
    ∀ (fuel : Nat) (open_list : List ANode) (closed : List Pos),
      AStarInv g start open_list closed →
      g.L * g.H + 2 ≤ fuel + closed.length →
      a_star_loop g goal fuel open_list closed = some ACTION_STAY := by
  intro fuel
  induction fuel with
  | zero =>
    intro open_list closed hinv hb
    exfalso
    have := closed_length_le g start closed hinv.closed_nodup hinv.closed_ok
    omega
  | succ n ih =>
    intro open_list closed hinv hb
    cases hpop : heappop open_list with
    | none =>
      unfold a_star_loop
      rw [hpop]
    | some pr =>
      obtain ⟨cur, open2⟩ := pr
      have hperm := heappop_perm open_list cur open2 hpop
      have hcurmem : cur ∈ open_list :=
        hperm.mem_iff.mp (List.mem_cons_self _ _)
      have hreach := hinv.reach cur hcurmem
      have hgoal : ¬ (cur.position = goal) := fun he => hnr (he ▸ hreach)
      unfold a_star_loop
      rw [hpop]
      dsimp only
      rw [if_neg hgoal]
      have hmapnd : ((cur :: open2).map ANode.position).Nodup :=
        (hperm.map ANode.position).nodup_iff.mpr hinv.nodup
      rw [List.map_cons, List.nodup_cons] at hmapnd
      obtain ⟨hcp, hnd2⟩ := hmapnd
      have hinv2 : AStarInv g start open2 (cur.position :: closed) := by
        refine ⟨?_, ?_, hnd2, ?_, ?_, ?_⟩
        · intro nd hnd
          exact hinv.reach nd (hperm.mem_iff.mp (List.mem_cons_of_mem _ hnd))
        · intro nd hnd
          exact hinv.ok nd (hperm.mem_iff.mp (List.mem_cons_of_mem _ hnd))
        · intro nd hnd hmm
          rcases List.mem_cons.mp hmm with he | hm
          · exact hcp (he ▸ List.mem_map_of_mem ANode.position hnd)
          · exact hinv.disj nd
              (hperm.mem_iff.mp (List.mem_cons_of_mem _ hnd)) hm
        · exact List.nodup_cons.mpr ⟨hinv.disj cur hcurmem, hinv.closed_nodup⟩
        · intro p hp
          rcases List.mem_cons.mp hp with rfl | hm
          · exact hinv.ok cur hcurmem
          · exact hinv.closed_ok p hm
      refine ih _ _ (expand_inv g start goal cur _ open2 hreach hinv2) ?_
      simp only [List.length_cons]
      omega

/-- C8: `a_star_search` returns the Stay action when the start equals
the goal, and when no obstacle-avoiding path from start to goal exists. -/
theorem a_star_search_stay (start_pos goal_pos : Pos) (g : Config) :
    (start_pos = goal_pos →
      a_star_search start_pos goal_pos g = some ACTION_STAY) ∧
    (¬ ReachableCell g start_pos goal_pos →
      a_star_search start_pos goal_pos g = some ACTION_STAY) := by
  constructor
  · rintro rfl
    exact a_star_search_at_goal start_pos g
  · intro hnr
    unfold a_star_search
    refine a_star_loop_no_path g start_pos goal_pos hnr _ _ [] ?_ (by simp)
    refine ⟨?_, ?_, by simp, by simp, List.nodup_nil, by simp⟩
    · intro nd hnd
      rcases List.mem_singleton.mp hnd with rfl
      exact ⟨0, PathTo.refl⟩
    · intro nd hnd
      rcases List.mem_singleton.mp hnd with rfl
      exact Or.inr rfl

/-- C8 witness: at a concrete input with start = goal. -/
theorem a_star_search_stay_witness :
    a_star_search (2, 2) (2, 2) gEx = some ACTION_STAY :=
  (a_star_search_stay (2, 2) (2, 2) gEx).1 rfl

end Chicken

namespace Chicken

theorem PathTo.trans {g : Config} {p q r : Pos} {n m : Nat}
    (h1 : PathTo g p q n) (h2 : PathTo g q r m) : PathTo g p r (n + m) := by
  induction h2 with
  | refl => exact h1
  | snoc hp hstep hv ih => exact (ih).snoc hstep hv

theorem manhattan_triangle (p q r : Pos) :
    manhattan_distance p r ≤ manhattan_distance p q + manhattan_distance q r := by
  simp only [manhattan_distance]
  omega

theorem manhattan_step {p q : Pos}
    (h : ∃ ad ∈ ACTION_DELTAS, q = (p.1 + ad.2.1, p.2 + ad.2.2)) :
    manhattan_distance p q ≤ 1 := by
  obtain ⟨ad, hmem, rfl⟩ := h
  simp only [ACTION_DELTAS, ACTION_STAY, ACTION_NORTH, ACTION_SOUTH,
    ACTION_WEST, ACTION_EAST, List.mem_cons, List.mem_singleton] at hmem
  rcases hmem with rfl | rfl | rfl | rfl | rfl | hmem <;>
    first
    | exact absurd hmem (List.not_mem_nil _)
    | (simp [manhattan_distance]; try omega)

theorem manhattan_le_path {g : Config} {p q : Pos} {n : Nat}
    (h : PathTo g p q n) : manhattan_distance p q ≤ n := by
  induction h with
  | refl => simp [manhattan_distance]
  | @snoc p1 q1 n1 hp hstep hv ih =>
    have h1 := manhattan_triangle p p1 q1
    have h2 := manhattan_step hstep
    omega

theorem distS_le {g : Config} {p q : Pos} {n : Nat} (h : PathTo g p q n) :
    distS g p q ≤ n := Nat.sInf_le h

theorem pathTo_distS {g : Config} {p q : Pos} (h : ∃ n, PathTo g p q n) :
    PathTo g p q (distS g p q) := Nat.sInf_mem h

theorem manhattan_le_distS {g : Config} {p q : Pos}
    (h : ∃ n, PathTo g p q n) : manhattan_distance p q ≤ distS g p q :=
  manhattan_le_path (pathTo_distS h)

theorem distS_triangle {g : Config} {p q r : Pos}
    (h1 : ∃ n, PathTo g p q n) (h2 : ∃ n, PathTo g q r n) :
    distS g p r ≤ distS g p q + distS g q r :=
  distS_le ((pathTo_distS h1).trans (pathTo_distS h2))

theorem chain_path {g : Config} {start : Pos} :
    ∀ (nd : ANode), ChainOK g start nd →
      PathTo g start nd.position nd.gcost
  | .mk p none act gc hc fc => by
    rintro ⟨rfl, rfl, rfl⟩
    exact PathTo.refl
  | .mk p (some parent) act gc hc fc => by
    rintro ⟨hpar, rfl, hv, had⟩
    have ih := chain_path parent hpar
    obtain ⟨ad, hmem, hpe, hact⟩ := had
    exact ih.snoc ⟨ad, hmem, hpe⟩ hv

theorem chain_path_len {g : Config} {start : Pos} :
    ∀ (nd : ANode), ChainOK g start nd →
      (path_actions nd).length = nd.gcost
  | .mk p none act gc hc fc => by
    rintro ⟨rfl, rfl, rfl⟩
    rfl
  | .mk p (some parent) act gc hc fc => by
    rintro ⟨hpar, rfl, hv, had⟩
    show (act :: path_actions parent).length = parent.gcost + 1
    rw [List.length_cons, chain_path_len parent hpar]

theorem chain_first_action {g : Config} {start : Pos} :
    ∀ (nd : ANode), ChainOK g start nd → 0 < nd.gcost →
      ∃ a ad, (path_actions nd).getLast? = some (some a) ∧
        ad ∈ ACTION_DELTAS ∧ ad.1 = a ∧
        g.is_valid_pos (start.1 + ad.2.1, start.2 + ad.2.2) = true ∧
        PathTo g (start.1 + ad.2.1, start.2 + ad.2.2) nd.position
          (nd.gcost - 1)
  | .mk p none act gc hc fc => by
    rintro ⟨rfl, rfl, rfl⟩ h0
    simp [ANode.gcost] at h0
  | .mk p (some parent) act gc hc fc => by
    rintro ⟨hpar, rfl, hv, ⟨ad, hmem, hpe, hact⟩⟩ h0
    by_cases hpg : 0 < parent.gcost
    · obtain ⟨a, ad0, hlast, hmem0, ha0, hv0, hpath⟩ :=
        chain_first_action parent hpar hpg
      refine ⟨a, ad0, ?_, hmem0, ha0, hv0, ?_⟩
      · have hlen := chain_path_len parent hpar
        have hne : path_actions parent ≠ [] := by
          intro he
          rw [he] at hlen
          simp at hlen
          omega
        obtain ⟨y, ys, he⟩ := List.exists_cons_of_ne_nil hne
        show (act :: path_actions parent).getLast? = some (some a)
        rw [he]
        rw [he] at hlast
        rw [List.getLast?_cons_cons]
        exact hlast
      · have hstep := hpath.snoc
          (⟨ad, hmem, by rw [hpe]⟩ :
            ∃ x ∈ ACTION_DELTAS, p =
              (parent.position.1 + x.2.1, parent.position.2 + x.2.2)) hv
        rw [Nat.sub_add_cancel hpg] at hstep
        show PathTo g _ p (parent.gcost + 1 - 1)
        simpa using hstep
    · have hg0 : parent.gcost = 0 := by omega
      have hps : parent.position = start := by
        cases parent with
        | mk pp pq pa pg ph pf =>
          cases pq with
          | none =>
            obtain ⟨h1, -, -⟩ := hpar
            exact h1
          | some gp =>
            obtain ⟨-, h2, -⟩ := hpar
            simp only [ANode.gcost] at hg0
            omega
      have hpstart : p = (start.1 + ad.2.1, start.2 + ad.2.2) := by
        rw [hpe, hps]
      refine ⟨ad.1, ad, ?_, hmem, rfl, ?_, ?_⟩
      · have hlen := chain_path_len parent hpar
        rw [hg0] at hlen
        have hnil := List.length_eq_zero.mp hlen
        show (act :: path_actions parent).getLast? = some (some ad.1)
        rw [hnil, hact]
        rfl
      · rw [← hpstart]
        exact hv
      · show PathTo g _ p (parent.gcost + 1 - 1)
        rw [hg0]
        rw [hpstart]
        exact PathTo.refl

theorem InSub.zero (p : Nat) : InSub 0 p := by
  induction p using Nat.strong_induction_on with
  | _ p ih =>
    cases p with
    | zero => exact InSub.base
    | succ q => exact InSub.up (by omega) (ih _ (by omega))

theorem InSub.le {s p : Nat} (h : InSub s p) : s ≤ p := by
  induction h with
  | base => exact le_refl _
  | up hlt _ _ => omega

theorem fAt_set_eq (l : List ANode) (i : Nat) (a : ANode)
    (hi : i < l.length) : fAt (l.set i a) i = a.fcost := by
  simp [fAt, List.getD_eq_getElem?_getD, List.getElem?_set, hi]

theorem fAt_set_ne (l : List ANode) (i k : Nat) (a : ANode)
    (hne : i ≠ k) : fAt (l.set i a) k = fAt l k := by
  simp [fAt, List.getD_eq_getElem?_getD, List.getElem?_set_ne hne]

/-- Root of a heap is minimal. -/
theorem isHeap_root_le (l : List ANode) (hh : IsHeap l) :
    ∀ i, i < l.length → fAt l 0 ≤ fAt l i := by
  intro i
  induction i using Nat.strong_induction_on with
  | _ i ih =>
    intro hi
    cases i with
    | zero => exact le_refl _
    | succ j =>
      have h1 := hh (j + 1) (by omega) hi (by omega)
      have h2 := ih (j / 2) (by omega) (by omega)
      calc fAt l 0 ≤ fAt l ((j + 1 - 1) / 2) := by simpa using h2
        _ ≤ fAt l (j + 1) := h1

theorem InSub.stepdown {s p : Nat} (h : InSub s p) (hlt : s < p) :
    InSub s ((p - 1) / 2) := by
  cases h with
  | base => omega
  | up _ h2 => exact h2

/-- Writing `newitem` at the hole yields a heap, provided all other pairs
hold, the hole's children dominate `newitem`, and the hole's parent (when
relevant) is at most `newitem`. -/
theorem heapFrom_set_final (l : List ANode) (s pos : Nat) (newitem : ANode)
    (hlen : pos < l.length)
    (H1 : ∀ i, 0 < i → i < l.length → i ≠ pos → (i - 1) / 2 ≠ pos →
        s ≤ (i - 1) / 2 → fAt l ((i - 1) / 2) ≤ fAt l i)
    (H3 : ∀ j, j < l.length → (j - 1) / 2 = pos → j ≠ pos →
        newitem.fcost ≤ fAt l j)
    (Hpar : 0 < pos → s ≤ (pos - 1) / 2 → fAt l ((pos - 1) / 2) ≤ newitem.fcost) :
    HeapFrom (l.set pos newitem) s := by
  intro i hi0 hilen hpar
  simp only [List.length_set] at hilen
  by_cases hip : i = pos
  · subst hip
    have hne : i ≠ (i - 1) / 2 := by omega
    rw [fAt_set_eq l i newitem hlen, fAt_set_ne l i ((i - 1) / 2) newitem hne]
    exact Hpar hi0 hpar
  · by_cases hpp : (i - 1) / 2 = pos
    · rw [hpp, fAt_set_eq l pos newitem hlen,
        fAt_set_ne l pos i newitem (fun h => hip h.symm)]
      exact H3 i hilen hpp hip
    · rw [fAt_set_ne l pos i newitem (fun h => hip h.symm),
        fAt_set_ne l pos ((i - 1) / 2) newitem (fun h => hpp h.symm)]
      exact H1 i hi0 hilen hip hpp hpar

/-- Bubble-up correctness: if every pair away from the hole is ordered,
the hole's children dominate both its parent and `newitem`, and the hole
lies in the subtree of `s`, then the loop restores the heap order from
`s`. -/
theorem siftdownLoop_heapFrom (fuel : Nat) :
    ∀ (l : List ANode) (s pos : Nat) (newitem : ANode),
    pos < l.length → pos ≤ fuel → InSub s pos →
    (∀ i, 0 < i → i < l.length → i ≠ pos → (i - 1) / 2 ≠ pos →
        s ≤ (i - 1) / 2 → fAt l ((i - 1) / 2) ≤ fAt l i) →
    (∀ j, j < l.length → (j - 1) / 2 = pos → j ≠ pos → s < pos →
        fAt l ((pos - 1) / 2) ≤ fAt l j) →
    (∀ j, j < l.length → (j - 1) / 2 = pos → j ≠ pos →
        newitem.fcost ≤ fAt l j) →
    HeapFrom (siftdownLoop fuel l s pos newitem) s := by
  induction fuel with
  | zero =>
    intro l s pos newitem hlen hfuel hsub H1 H2 H3
    have hpos : pos = 0 := by omega
    simp only [siftdownLoop]
    exact heapFrom_set_final l s pos newitem hlen H1 H3 (by omega)
  | succ fuel ih =>
    intro l s pos newitem hlen hfuel hsub H1 H2 H3
    simp only [siftdownLoop]
    split_ifs with hsp hcmp
    · -- move the parent down into the hole and recurse at the parent index
      have hpos1 : 0 < pos := by omega
      have hPlt : (pos - 1) / 2 < pos := by omega
      have hPlen : (pos - 1) / 2 < l.length := by omega
      apply ih
      · simpa using (by omega : (pos - 1) / 2 < l.length)
      · omega
      · exact hsub.stepdown hsp
      · -- pairs away from the new hole
        intro i hi0 hilen hip hpp hpar
        simp only [List.length_set] at hilen
        by_cases hipos : i = pos
        · exact absurd (by rw [hipos]) hpp
        · by_cases hparpos : (i - 1) / 2 = pos
          · have h2 := H2 i hilen hparpos hipos hsp
            rw [hparpos, fAt_set_eq l pos _ hlen,
              fAt_set_ne l pos i _ (fun h => hipos h.symm)]
            exact h2
          · rw [fAt_set_ne l pos i _ (fun h => hipos h.symm),
              fAt_set_ne l pos ((i - 1) / 2) _ (fun h => hparpos h.symm)]
            exact H1 i hi0 hilen hipos hparpos hpar
      · -- children of the new hole dominate its parent
        intro j hjlen hjp hjne hsP
        simp only [List.length_set] at hjlen
        have hP1 : 0 < (pos - 1) / 2 := hsP.trans_le' (Nat.zero_le s)
        have hPPne : ((pos - 1) / 2 - 1) / 2 ≠ pos := by omega
        have hsPP : s ≤ ((pos - 1) / 2 - 1) / 2 :=
          ((hsub.stepdown hsp).stepdown hsP).le
        have hup : fAt l (((pos - 1) / 2 - 1) / 2) ≤ fAt l ((pos - 1) / 2) :=
          H1 ((pos - 1) / 2) hP1 hPlen (by omega) hPPne hsPP
        rw [fAt_set_ne l pos (((pos - 1) / 2 - 1) / 2) _ (by omega)]
        by_cases hj : j = pos
        · subst hj
          rw [fAt_set_eq l j _ hlen]
          exact hup
        · rw [fAt_set_ne l pos j _ (fun h => hj h.symm)]
          have hj0 : 0 < j := by omega
          have hdown : fAt l ((pos - 1) / 2) ≤ fAt l j := by
            have h := H1 j hj0 hjlen hj (by omega) (by omega)
            rwa [hjp] at h
          exact hup.trans hdown
      · -- children of the new hole dominate the new item
        intro j hjlen hjp hjne
        simp only [List.length_set] at hjlen
        have hcmp' : newitem.fcost ≤ fAt l ((pos - 1) / 2) := le_of_lt hcmp
        by_cases hj : j = pos
        · subst hj
          rw [fAt_set_eq l j _ hlen]
          exact hcmp'
        · rw [fAt_set_ne l pos j _ (fun h => hj h.symm)]
          have hj0 : 0 < j := by omega
          have hsP : s ≤ (pos - 1) / 2 := (hsub.stepdown hsp).le
          have hdown : fAt l ((pos - 1) / 2) ≤ fAt l j := by
            have h := H1 j hj0 hjlen hj (by omega) (by omega)
            rwa [hjp] at h
          exact hcmp'.trans hdown
    · exact heapFrom_set_final l s pos newitem hlen H1 H3
        (fun _ _ => Nat.le_of_not_lt hcmp)
    · have hps : pos = s := le_antisymm (Nat.le_of_not_lt hsp) hsub.le
      exact heapFrom_set_final l s pos newitem hlen H1 H3 (by omega)

theorem fAt_append_lt (l l2 : List ANode) (k : Nat) (hk : k < l.length) :
    fAt (l ++ l2) k = fAt l k := by
  simp [fAt, List.getD_eq_getElem?_getD, List.getElem?_append, hk]

theorem heappush_isHeap (l : List ANode) (item : ANode) (hh : IsHeap l) :
    IsHeap (heappush l item) := by
  apply siftdownLoop_heapFrom
  · simp
  · exact le_refl _
  · exact InSub.zero _
  · intro i hi0 hilen hip hpp _
    simp only [List.length_append, List.length_cons, List.length_nil] at hilen
    have hi : i < l.length := by omega
    rw [fAt_append_lt l [item] i hi, fAt_append_lt l [item] ((i - 1) / 2) (by omega)]
    exact hh i hi0 hi (Nat.zero_le _)
  · intro j hjlen hjp hjne _
    simp only [List.length_append, List.length_cons, List.length_nil] at hjlen
    omega
  · intro j hjlen hjp hjne
    simp only [List.length_append, List.length_cons, List.length_nil] at hjlen
    omega

/-- One chase step: moving the minimal child `c` of the hole `pos` up
into the hole preserves the chase invariant, with the hole now at `c`. -/
theorem chase_step (l : List ANode) (j pos c : Nat)
    (hlen : pos < l.length) (hclen : c < l.length)
    (hsub : InSub j pos)
    (hc : (c - 1) / 2 = pos ∧ pos < c)
    (hmin : ∀ oc, oc < l.length → (oc - 1) / 2 = pos → oc ≠ pos → oc ≠ c →
        fAt l c ≤ fAt l oc)
    (hinv : ChaseInv l j pos) :
    ChaseInv (l.set pos (l.getD c dummyNode)) j c := by
  have hjpos : j ≤ pos := hsub.le
  constructor
  · intro i hi0 hilen hic hpc hji
    simp only [List.length_set] at hilen
    by_cases hip : i = pos
    · subst hip
      rw [fAt_set_ne l i ((i - 1) / 2) _ (by omega), fAt_set_eq l i _ hlen]
      have hjp : j < i := by omega
      exact hinv.2 c hclen hc.1 (by omega) hjp
    · by_cases hpp : (i - 1) / 2 = pos
      · rw [hpp, fAt_set_eq l pos _ hlen,
          fAt_set_ne l pos i _ (fun h => hip h.symm)]
        exact hmin i hilen hpp hip hic
      · rw [fAt_set_ne l pos i _ (fun h => hip h.symm),
          fAt_set_ne l pos ((i - 1) / 2) _ (fun h => hpp h.symm)]
        exact hinv.1 i hi0 hilen hip hpp hji
  · intro cc hcclen hccp hccne _
    simp only [List.length_set] at hcclen
    rw [show (c - 1) / 2 = pos from hc.1, fAt_set_eq l pos _ hlen,
      fAt_set_ne l pos cc _ (by omega)]
    have h := hinv.1 cc (by omega) hcclen (by omega) (by omega) (by omega)
    rwa [hccp] at h

/-- The chase loop keeps the invariant, stays inside the subtree of `j`,
preserves the length, and ends at a leaf. -/
theorem siftupLoop_chase (fuel : Nat) :
    ∀ (l : List ANode) (j pos : Nat),
    pos < l.length → l.length ≤ fuel + pos + 1 → InSub j pos →
    ChaseInv l j pos →
    (siftupLoop fuel l l.length pos).1.length = l.length ∧
    InSub j (siftupLoop fuel l l.length pos).2 ∧
    (siftupLoop fuel l l.length pos).2 < l.length ∧
    l.length ≤ 2 * (siftupLoop fuel l l.length pos).2 + 1 ∧
    ChaseInv (siftupLoop fuel l l.length pos).1 j
      (siftupLoop fuel l l.length pos).2 := by
  induction fuel with
  | zero =>
    intro l j pos hlen hfuel hsub hinv
    exact ⟨rfl, hsub, hlen, (by omega : l.length ≤ 2 * pos + 1), hinv⟩
  | succ fuel ih =>
    intro l j pos hlen hfuel hsub hinv
    have hjpos : j ≤ pos := hsub.le
    simp only [siftupLoop]
    split_ifs with hc1 hc2
    · -- right child exists and is at most the left child: chase right
      have hclen : 2 * pos + 1 + 1 < l.length := hc2.1
      have hLS : (l.set pos (l.getD (2 * pos + 1 + 1) dummyNode)).length =
          l.length := by simp
      have hstep := chase_step l j pos (2 * pos + 1 + 1) hlen hclen hsub
        ⟨by omega, by omega⟩
        (by
          intro oc hoclen hocp hocpos hocc
          have hoc : oc = 2 * pos + 1 := by omega
          subst hoc
          exact Nat.le_of_not_lt hc2.2)
        hinv
      have H := ih (l.set pos (l.getD (2 * pos + 1 + 1) dummyNode)) j
        (2 * pos + 1 + 1) (by simpa using hclen) (by simp; omega)
        (by
          refine InSub.up (by omega) ?_
          have he : (2 * pos + 1 + 1 - 1) / 2 = pos := by omega
          rw [he]
          exact hsub)
        hstep
      rw [hLS] at H
      exact H
    · -- chase the left child
      have hclen : 2 * pos + 1 < l.length := hc1
      have hLS : (l.set pos (l.getD (2 * pos + 1) dummyNode)).length =
          l.length := by simp
      have hstep := chase_step l j pos (2 * pos + 1) hlen hclen hsub
        ⟨by omega, by omega⟩
        (by
          intro oc hoclen hocp hocpos hocc
          have hoc : oc = 2 * pos + 1 + 1 := by omega
          subst hoc
          rcases not_and_or.mp hc2 with h | h
          · omega
          · exact le_of_lt (not_not.mp h))
        hinv
      have H := ih (l.set pos (l.getD (2 * pos + 1) dummyNode)) j
        (2 * pos + 1) (by simpa using hclen) (by simp; omega)
        (by
          refine InSub.up (by omega) ?_
          have he : (2 * pos + 1 - 1) / 2 = pos := by omega
          rw [he]
          exact hsub)
        hstep
      rw [hLS] at H
      exact H
    · exact ⟨rfl, hsub, hlen, (by omega : l.length ≤ 2 * pos + 1), hinv⟩

/-- The `_siftup` routine restores the heap order from `j` when every pair strictly
below `j` is already ordered. -/
theorem siftup_heapFrom (l : List ANode) (j : Nat) (hj : j < l.length)
    (hh : HeapFrom l (j + 1)) : HeapFrom (siftup l j) j := by
  have hchase := siftupLoop_chase l.length l j j hj (by omega) InSub.base
    (by
      constructor
      · intro i hi0 hilen hij hpj hji
        exact hh i hi0 hilen (by omega)
      · intro c _ _ _ hjj
        omega)
  obtain ⟨hlen1, hsub1, hlt1, hleaf1, hinv1⟩ := hchase
  simp only [siftup]
  apply siftdownLoop_heapFrom
  · rw [hlen1]
    exact hlt1
  · exact le_refl _
  · exact hsub1
  · exact hinv1.1
  · intro c hclen hcp hcne hjq
    rw [hlen1] at hclen
    omega
  · intro c hclen hcp hcne
    rw [hlen1] at hclen
    omega

theorem heapifyLoop_heapFrom (n : Nat) :
    ∀ l : List ANode, n ≤ l.length → HeapFrom l n → IsHeap (heapifyLoop l n) := by
  induction n with
  | zero => intro l _ hh; exact hh
  | succ j ih =>
    intro l hn hh
    show IsHeap (heapifyLoop (siftup l j) j)
    have hlen := siftup_length l j
    exact ih (siftup l j) (by omega) (siftup_heapFrom l j (by omega) hh)

/-- Running `heapq.heapify` always produces a heap. -/
theorem heapify_isHeap (l : List ANode) : IsHeap (heapify l) := by
  apply heapifyLoop_heapFrom (l.length / 2) l (by omega)
  intro i hi0 hilen hpar
  omega

theorem fAt_dropLast (l : List ANode) (k : Nat) (hk : k < l.length - 1) :
    fAt l.dropLast k = fAt l k := by
  have h1 : k < l.dropLast.length := by simp [List.length_dropLast]; omega
  have h2 : k < l.length := by omega
  rw [fAt, fAt, List.getD_eq_getElem l.dropLast dummyNode h1,
    List.getD_eq_getElem l dummyNode h2]
  congr 1
  exact List.getElem_dropLast l k h1

/-- Popping a heap leaves a heap. -/
theorem heappop_isHeap (heap : List ANode) (c : ANode) (h' : List ANode)
    (hh : IsHeap heap) (h : heappop heap = some (c, h')) : IsHeap h' := by
  unfold heappop at h
  cases hl : heap.getLast? with
  | none => rw [hl] at h; exact Option.noConfusion h
  | some lastelt =>
    rw [hl] at h
    dsimp only at h
    by_cases hemp : heap.dropLast.isEmpty
    · rw [if_pos hemp] at h
      cases h
      rw [List.isEmpty_iff] at hemp
      rw [hemp]
      intro i hi0 hilen _
      simp at hilen
    · rw [if_neg hemp] at h
      cases h
      have hdlen : 0 < heap.dropLast.length := by
        rw [List.isEmpty_iff] at hemp
        exact List.length_pos.mpr hemp
      apply siftup_heapFrom
      · simpa using hdlen
      · intro i hi0 hilen hpar
        simp only [List.length_set] at hilen
        have hd2 : heap.dropLast.length = heap.length - 1 :=
          List.length_dropLast heap
        rw [fAt_set_ne _ 0 i _ (by omega), fAt_set_ne _ 0 ((i - 1) / 2) _ (by omega),
          fAt_dropLast heap i (by omega), fAt_dropLast heap ((i - 1) / 2) (by omega)]
        exact hh i hi0 (by omega) (by omega)

/-- Popping a heap returns an element of minimal `f`. -/
theorem heappop_min (heap : List ANode) (c : ANode) (h' : List ANode)
    (hh : IsHeap heap) (h : heappop heap = some (c, h')) :
    ∀ x ∈ heap, c.fcost ≤ x.fcost := by
  unfold heappop at h
  cases hl : heap.getLast? with
  | none => rw [hl] at h; exact Option.noConfusion h
  | some lastelt =>
    rw [hl] at h
    dsimp only at h
    have hne : heap ≠ [] := by
      intro hemp
      rw [hemp] at hl
      exact Option.noConfusion hl
    by_cases hemp : heap.dropLast.isEmpty
    · rw [if_pos hemp] at h
      cases h
      rw [List.isEmpty_iff] at hemp
      have hsplit : heap.dropLast ++ [c] = heap := by
        conv_rhs => rw [← List.dropLast_append_getLast hne]
        rw [List.getLast?_eq_getLast heap hne] at hl
        cases hl
        rfl
      rw [← hsplit, hemp]
      intro x hx
      simp at hx
      rw [hx]
    · rw [if_neg hemp] at h
      cases h
      have hdlen : 0 < heap.dropLast.length := by
        rw [List.isEmpty_iff] at hemp
        exact List.length_pos.mpr hemp
      have hd2 : heap.dropLast.length = heap.length - 1 :=
        List.length_dropLast heap
      intro x hx
      obtain ⟨i, hi, hxe⟩ := List.mem_iff_getElem.mp hx
      have hroot := isHeap_root_le heap hh i hi
      have hxf : fAt heap i = x.fcost := by
        rw [fAt, List.getD_eq_getElem heap dummyNode hi, hxe]
      show fAt heap.dropLast 0 ≤ x.fcost
      rw [fAt_dropLast heap 0 (by omega), ← hxf]
      exact hroot

/-- The `relax` update never loses a position witness, and never raises its `g`. -/
theorem relax_mono (open_list : List ANode) (nbr : ANode) (q : Pos) (B : Nat)
    (h : ∃ nd ∈ open_list, nd.position = q ∧ nd.gcost ≤ B) :
    ∃ nd ∈ relax open_list nbr, nd.position = q ∧ nd.gcost ≤ B := by
  obtain ⟨w, hw, hwpos, hwg⟩ := h
  unfold relax
  cases hf : open_list.findIdx? (fun n => n.position == nbr.position) with
  | some i =>
    dsimp only
    obtain ⟨hi, hpi, -⟩ := List.findIdx?_eq_some_iff_getElem.mp hf
    have hpos : open_list[i].position = nbr.position := by
      simpa [beq_iff_eq] using hpi
    by_cases hg : nbr.gcost < (open_list.getD i dummyNode).gcost
    · rw [if_pos hg]
      rw [List.getD_eq_getElem open_list dummyNode hi] at hg
      obtain ⟨k, hk, hke⟩ := List.mem_iff_getElem.mp hw
      by_cases hki : k = i
      · subst hki
        refine ⟨nbr, ?_, ?_, ?_⟩
        · refine (heapify_perm _).mem_iff.mpr ?_
          have hk2 : k < (open_list.set k nbr).length := by simpa using hk
          have he : (open_list.set k nbr)[k] = nbr := by simp
          simpa [he] using List.getElem_mem hk2
        · rw [hpos.symm, hke, hwpos]
        · rw [hke] at hg
          omega
      · refine ⟨w, ?_, hwpos, hwg⟩
        refine (heapify_perm _).mem_iff.mpr ?_
        have hk2 : k < (open_list.set i nbr).length := by simpa using hk
        have he : (open_list.set i nbr)[k] = open_list[k] := by
          simp [List.getElem_set_ne (fun h => hki h.symm)]
        rw [← hke, ← he]
        exact List.getElem_mem hk2
    · rw [if_neg hg]
      exact ⟨w, hw, hwpos, hwg⟩
  | none =>
    dsimp only
    exact ⟨w, (heappush_perm _ _).mem_iff.mpr (List.mem_cons_of_mem _ hw),
      hwpos, hwg⟩

/-- After `relax`, some node sits at the new node's position with a `g`
at most the new node's. -/
theorem relax_bound (open_list : List ANode) (nbr : ANode) :
    ∃ nd ∈ relax open_list nbr, nd.position = nbr.position ∧
      nd.gcost ≤ nbr.gcost := by
  unfold relax
  cases hf : open_list.findIdx? (fun n => n.position == nbr.position) with
  | some i =>
    dsimp only
    obtain ⟨hi, hpi, -⟩ := List.findIdx?_eq_some_iff_getElem.mp hf
    have hpos : open_list[i].position = nbr.position := by
      simpa [beq_iff_eq] using hpi
    by_cases hg : nbr.gcost < (open_list.getD i dummyNode).gcost
    · rw [if_pos hg]
      refine ⟨nbr, ?_, rfl, le_refl _⟩
      refine (heapify_perm _).mem_iff.mpr ?_
      have hi2 : i < (open_list.set i nbr).length := by simpa using hi
      have he : (open_list.set i nbr)[i] = nbr := by simp
      simpa [he] using List.getElem_mem hi2
    · rw [if_neg hg]
      rw [List.getD_eq_getElem open_list dummyNode hi] at hg
      exact ⟨open_list[i], List.getElem_mem _, hpos, Nat.le_of_not_lt hg⟩
  | none =>
    dsimp only
    exact ⟨nbr, (heappush_perm _ _).mem_iff.mpr (List.mem_cons_self _ _),
      rfl, le_refl _⟩

/-- The `relax` update keeps the heap order and any nodewise property satisfied by
the open list and the new node. -/
theorem relax_basic (open_list : List ANode) (nbr : ANode) (P : ANode → Prop)
    (hh : IsHeap open_list) (hP : ∀ nd ∈ open_list, P nd) (hPn : P nbr) :
    IsHeap (relax open_list nbr) ∧ ∀ nd ∈ relax open_list nbr, P nd := by
  unfold relax
  cases hf : open_list.findIdx? (fun n => n.position == nbr.position) with
  | some i =>
    dsimp only
    by_cases hg : nbr.gcost < (open_list.getD i dummyNode).gcost
    · rw [if_pos hg]
      refine ⟨heapify_isHeap _, ?_⟩
      intro nd hnd
      rcases List.mem_or_eq_of_mem_set ((heapify_perm _).mem_iff.mp hnd) with
        h | rfl
      · exact hP nd h
      · exact hPn
    · rw [if_neg hg]
      exact ⟨hh, hP⟩
  | none =>
    dsimp only
    refine ⟨heappush_isHeap _ _ hh, ?_⟩
    intro nd hnd
    rcases List.mem_cons.mp ((heappush_perm _ _).mem_iff.mp hnd) with rfl | h
    · exact hPn
    · exact hP nd h

/-- The neighbour fold never loses a position witness nor raises its
`g`. -/
theorem expand_fold_mono (g : Config) (goal : Pos) (cur : ANode)
    (closed : List Pos) :
    ∀ (l : List (Nat × Pos)) (open_list : List ANode) (q : Pos) (B : Nat),
    (∃ nd ∈ open_list, nd.position = q ∧ nd.gcost ≤ B) →
    ∃ nd ∈ (l.foldl (fun ol ad =>
        let np : Pos := (cur.position.1 + ad.2.1, cur.position.2 + ad.2.2)
        if ¬ g.is_valid_pos np then ol
        else if closed.contains np then ol
        else
          relax ol (.mk np (some cur) (some ad.1) (cur.gcost + 1)
            (manhattan_distance np goal)
            ((cur.gcost + 1) + manhattan_distance np goal))) open_list),
      nd.position = q ∧ nd.gcost ≤ B := by
  intro l
  induction l with
  | nil => intro open_list q B h; exact h
  | cons ad tl ih =>
    intro open_list q B h
    rw [List.foldl_cons]
    apply ih
    by_cases hv : g.is_valid_pos
        (cur.position.1 + ad.2.1, cur.position.2 + ad.2.2) = true
    · rw [if_neg (by simp [hv])]
      by_cases hcl : closed.contains
          (cur.position.1 + ad.2.1, cur.position.2 + ad.2.2)
      · rw [if_pos hcl]
        exact h
      · rw [if_neg hcl]
        exact relax_mono _ _ q B h
    · rw [if_pos (by simp [hv])]
      exact h

/-- The neighbour fold keeps the heap order and any nodewise property
that holds of the generated neighbour nodes. -/
theorem expand_fold_basic (g : Config) (goal : Pos) (cur : ANode)
    (closed : List Pos) (P : ANode → Prop)
    (hPnew : ∀ ad ∈ ACTION_DELTAS,
      g.is_valid_pos (cur.position.1 + ad.2.1, cur.position.2 + ad.2.2) =
        true →
      P (.mk (cur.position.1 + ad.2.1, cur.position.2 + ad.2.2) (some cur)
        (some ad.1) (cur.gcost + 1)
        (manhattan_distance
          (cur.position.1 + ad.2.1, cur.position.2 + ad.2.2) goal)
        ((cur.gcost + 1) + manhattan_distance
          (cur.position.1 + ad.2.1, cur.position.2 + ad.2.2) goal))) :
    ∀ (l : List (Nat × Pos)), (∀ ad ∈ l, ad ∈ ACTION_DELTAS) →
    ∀ (open_list : List ANode), IsHeap open_list →
    (∀ nd ∈ open_list, P nd) →
    IsHeap (l.foldl (fun ol ad =>
        let np : Pos := (cur.position.1 + ad.2.1, cur.position.2 + ad.2.2)
        if ¬ g.is_valid_pos np then ol
        else if closed.contains np then ol
        else
          relax ol (.mk np (some cur) (some ad.1) (cur.gcost + 1)
            (manhattan_distance np goal)
            ((cur.gcost + 1) + manhattan_distance np goal))) open_list) ∧
    ∀ nd ∈ (l.foldl (fun ol ad =>
        let np : Pos := (cur.position.1 + ad.2.1, cur.position.2 + ad.2.2)
        if ¬ g.is_valid_pos np then ol
        else if closed.contains np then ol
        else
          relax ol (.mk np (some cur) (some ad.1) (cur.gcost + 1)
            (manhattan_distance np goal)
            ((cur.gcost + 1) + manhattan_distance np goal))) open_list),
      P nd := by
  intro l
  induction l with
  | nil => intro _ open_list hh hP; exact ⟨hh, hP⟩
  | cons ad tl ih =>
    intro hmem open_list hh hP
    rw [List.foldl_cons]
    refine ih (fun x hx => hmem x (List.mem_cons_of_mem _ hx)) _ ?_ ?_
    · by_cases hv : g.is_valid_pos
          (cur.position.1 + ad.2.1, cur.position.2 + ad.2.2) = true
      · rw [if_neg (by simp [hv])]
        by_cases hcl : closed.contains
            (cur.position.1 + ad.2.1, cur.position.2 + ad.2.2)
        · rw [if_pos hcl]
          exact hh
        · rw [if_neg hcl]
          exact (relax_basic _ _ P hh hP
            (hPnew ad (hmem ad (List.mem_cons_self _ _)) hv)).1
      · rw [if_pos (by simp [hv])]
        exact hh
    · by_cases hv : g.is_valid_pos
          (cur.position.1 + ad.2.1, cur.position.2 + ad.2.2) = true
      · rw [if_neg (by simp [hv])]
        by_cases hcl : closed.contains
            (cur.position.1 + ad.2.1, cur.position.2 + ad.2.2)
        · rw [if_pos hcl]
          exact hP
        · rw [if_neg hcl]
          exact (relax_basic _ _ P hh hP
            (hPnew ad (hmem ad (List.mem_cons_self _ _)) hv)).2
      · rw [if_pos (by simp [hv])]
        exact hP

/-- Expanding a node places, for each valid unclosed neighbour, an open
node there with `g` at most `cur.g + 1`. -/
theorem expand_fold_new (g : Config) (goal : Pos) (cur : ANode)
    (closed : List Pos) :
    ∀ (l : List (Nat × Pos)) (ad : Nat × Pos), ad ∈ l →
    g.is_valid_pos (cur.position.1 + ad.2.1, cur.position.2 + ad.2.2) =
      true →
    ¬ closed.contains (cur.position.1 + ad.2.1, cur.position.2 + ad.2.2) →
    ∀ (open_list : List ANode),
    ∃ nd ∈ (l.foldl (fun ol ad =>
        let np : Pos := (cur.position.1 + ad.2.1, cur.position.2 + ad.2.2)
        if ¬ g.is_valid_pos np then ol
        else if closed.contains np then ol
        else
          relax ol (.mk np (some cur) (some ad.1) (cur.gcost + 1)
            (manhattan_distance np goal)
            ((cur.gcost + 1) + manhattan_distance np goal))) open_list),
      nd.position = (cur.position.1 + ad.2.1, cur.position.2 + ad.2.2) ∧
      nd.gcost ≤ cur.gcost + 1 := by
  intro l
  induction l with
  | nil => intro ad had; exact absurd had (List.not_mem_nil _)
  | cons hd tl ih =>
    intro ad had hv hcl open_list
    rw [List.foldl_cons]
    rcases List.mem_cons.mp had with rfl | htl
    · apply expand_fold_mono
      rw [if_neg (by simp [hv]), if_neg hcl]
      exact relax_bound _ _
    · exact ih ad htl hv hcl _

/-- Popping a node and closing its position preserves the basic
invariant. -/
theorem pop_inv (g : Config) (start : Pos) (open_list open2 : List ANode)
    (closed : List Pos) (cur : ANode)
    (hinv : AStarInv g start open_list closed)
    (hpop : heappop open_list = some (cur, open2)) :
    AStarInv g start open2 (cur.position :: closed) := by
  have hperm := heappop_perm open_list cur open2 hpop
  have hcurmem : cur ∈ open_list :=
    hperm.mem_iff.mp (List.mem_cons_self _ _)
  have hmapnd : ((cur :: open2).map ANode.position).Nodup :=
    (hperm.map ANode.position).nodup_iff.mpr hinv.nodup
  rw [List.map_cons, List.nodup_cons] at hmapnd
  obtain ⟨hcp, hnd2⟩ := hmapnd
  refine ⟨?_, ?_, hnd2, ?_, ?_, ?_⟩
  · intro nd hnd
    exact hinv.reach nd (hperm.mem_iff.mp (List.mem_cons_of_mem _ hnd))
  · intro nd hnd
    exact hinv.ok nd (hperm.mem_iff.mp (List.mem_cons_of_mem _ hnd))
  · intro nd hnd hmm
    rcases List.mem_cons.mp hmm with he | hm
    · exact hcp (he ▸ List.mem_map_of_mem ANode.position hnd)
    · exact hinv.disj nd
        (hperm.mem_iff.mp (List.mem_cons_of_mem _ hnd)) hm
  · exact List.nodup_cons.mpr ⟨hinv.disj cur hcurmem, hinv.closed_nodup⟩
  · intro p hp
    rcases List.mem_cons.mp hp with rfl | hm
    · exact hinv.ok cur hcurmem
    · exact hinv.closed_ok p hm

/-- Frontier lemma: every path from the start ends in the closed set or
passes through an open node whose recorded `f` is at most the path's
length plus the heuristic at its endpoint. -/
theorem astar_frontier (g : Config) (start goal : Pos)
    (open_list : List ANode) (closed : List Pos)
    (hf : AStarFull g start goal open_list closed) :
    ∀ {p : Pos} {n : Nat}, PathTo g start p n → p ∈ closed ∨
      ∃ nd ∈ open_list,
        nd.gcost + manhattan_distance nd.position goal ≤
          n + manhattan_distance p goal := by
  intro p n hp
  induction hp with
  | refl =>
    rcases hf.kstart with h | ⟨nd, hnd, hpos, hg⟩
    · exact Or.inl h
    · exact Or.inr ⟨nd, hnd, by simp [hpos, hg]⟩
  | @snoc p1 q1 n1 hp1 hstep hv ih =>
    rcases ih with hcl | ⟨nd, hnd, hb⟩
    · obtain ⟨ad, hadm, hq⟩ := hstep
      rcases hf.cexp p1 hcl ad hadm (by rw [← hq]; exact hv) with
        hin | ⟨nd, hnd, hpos, hg⟩
      · exact Or.inl (by rw [hq]; exact hin)
      · refine Or.inr ⟨nd, hnd, ?_⟩
        have hd := distS_le hp1
        rw [hpos, hq]
        omega
    · refine Or.inr ⟨nd, hnd, ?_⟩
      obtain ⟨ad, hadm, hq⟩ := hstep
      have h1 := manhattan_triangle p1 q1 goal
      have h2 : manhattan_distance p1 q1 ≤ 1 := manhattan_step ⟨ad, hadm, hq⟩
      omega

/-- Every pop of the loop is prefix-optimal: the popped node's recorded
`g` is the true shortest distance bound to its cell. -/
theorem pop_prefix_opt (g : Config) (start goal : Pos)
    (open_list open2 : List ANode) (closed : List Pos) (cur : ANode)
    (hf : AStarFull g start goal open_list closed)
    (hpop : heappop open_list = some (cur, open2)) :
    cur.gcost ≤ distS g start cur.position := by
  have hperm := heappop_perm open_list cur open2 hpop
  have hcurmem : cur ∈ open_list :=
    hperm.mem_iff.mp (List.mem_cons_self _ _)
  have hreach := hf.inv.reach cur hcurmem
  have hpath := pathTo_distS hreach
  rcases astar_frontier g start goal open_list closed hf hpath with
    hcl | ⟨nd, hnd, hb⟩
  · exact absurd hcl (hf.inv.disj cur hcurmem)
  · have hmin := heappop_min open_list cur open2 hf.heap hpop nd hnd
    have h1 := hf.fok cur hcurmem
    have h2 := hf.fok nd hnd
    omega

/-- When the goal is popped, its recorded `g` is at most the length of
any path from start to goal. -/
theorem pop_goal_opt (g : Config) (start goal : Pos)
    (open_list open2 : List ANode) (closed : List Pos) (cur : ANode)
    (hf : AStarFull g start goal open_list closed)
    (hpop : heappop open_list = some (cur, open2))
    (hg : cur.position = goal) :
    ∀ N, PathTo g start goal N → cur.gcost ≤ N := by
  intro N hN
  have hperm := heappop_perm open_list cur open2 hpop
  have hcurmem : cur ∈ open_list :=
    hperm.mem_iff.mp (List.mem_cons_self _ _)
  rcases astar_frontier g start goal open_list closed hf hN with
    hcl | ⟨nd, hnd, hb⟩
  · exact absurd hcl hf.gnc
  · have hmin := heappop_min open_list cur open2 hf.heap hpop nd hnd
    have h1 := hf.fok cur hcurmem
    have h2 := hf.fok nd hnd
    have hm0 : manhattan_distance goal goal = 0 := by
      simp [manhattan_distance]
    rw [hg, hm0] at h1
    rw [hm0] at hb
    omega

/-- One non-goal iteration of the search loop preserves the full
invariant. -/
theorem astar_pop_step (g : Config) (start goal : Pos)
    (open_list open2 : List ANode) (closed : List Pos) (cur : ANode)
    (hf : AStarFull g start goal open_list closed)
    (hpop : heappop open_list = some (cur, open2))
    (hng : cur.position ≠ goal) :
    AStarFull g start goal
      (expand g goal cur (cur.position :: closed) open2)
      (cur.position :: closed) := by
  have hperm := heappop_perm open_list cur open2 hpop
  have hcurmem : cur ∈ open_list :=
    hperm.mem_iff.mp (List.mem_cons_self _ _)
  have hmem2 : ∀ nd ∈ open2, nd ∈ open_list := fun nd h =>
    hperm.mem_iff.mp (List.mem_cons_of_mem _ h)
  have hreach := hf.inv.reach cur hcurmem
  have hgopt := pop_prefix_opt g start goal open_list open2 closed cur hf hpop
  have hinv2 := pop_inv g start open_list open2 closed cur hf.inv hpop
  have hbasic := expand_fold_basic g goal cur (cur.position :: closed)
    (fun nd => ChainOK g start nd ∧
      nd.fcost = nd.gcost + manhattan_distance nd.position goal)
    (by
      intro ad hadm hv
      refine ⟨⟨hf.chains cur hcurmem, rfl, hv, ⟨ad, hadm, rfl, rfl⟩⟩, rfl⟩)
    ACTION_DELTAS (fun _ h => h) open2
    (heappop_isHeap open_list cur open2 hf.heap hpop)
    (fun nd hnd => ⟨hf.chains nd (hmem2 nd hnd), hf.fok nd (hmem2 nd hnd)⟩)
  refine ⟨expand_inv g start goal cur _ open2 hreach hinv2,
    hbasic.1, fun nd hnd => (hbasic.2 nd hnd).1,
    fun nd hnd => (hbasic.2 nd hnd).2, ?_, ?_, ?_⟩
  · -- the start is closed or still open at g = 0
    rcases hf.kstart with h | ⟨nd0, hnd0, hp0, hg0⟩
    · exact Or.inl (List.mem_cons_of_mem _ h)
    · rcases List.mem_cons.mp (hperm.mem_iff.mpr hnd0) with he | h2
      · left
        rw [← hp0, he]
        exact List.mem_cons_self _ _
      · right
        obtain ⟨nd, hnd, hpos, hg⟩ := expand_fold_mono g goal cur
          (cur.position :: closed) ACTION_DELTAS open2 start 0
          ⟨nd0, h2, hp0, by omega⟩
        exact ⟨nd, hnd, hpos, by omega⟩
  · -- the goal stays unclosed
    intro h
    rcases List.mem_cons.mp h with he | hm
    · exact hng he.symm
    · exact hf.gnc hm
  · -- every closed cell remains fully expanded
    intro p hp ad hadm hvnp
    rcases List.mem_cons.mp hp with rfl | hpold
    · by_cases hcl : (cur.position.1 + ad.2.1, cur.position.2 + ad.2.2) ∈
          cur.position :: closed
      · exact Or.inl hcl
      · right
        obtain ⟨nd, hnd, hpos, hg⟩ := expand_fold_new g goal cur
          (cur.position :: closed) ACTION_DELTAS ad hadm hvnp
          (fun hc => hcl (List.mem_of_elem_eq_true hc)) open2
        exact ⟨nd, hnd, hpos, by omega⟩
    · rcases hf.cexp p hpold ad hadm hvnp with hin | ⟨nd, hnd, hpos, hg⟩
      · exact Or.inl (List.mem_cons_of_mem _ hin)
      · rcases List.mem_cons.mp (hperm.mem_iff.mpr hnd) with he | h2
        · left
          rw [← hpos, he]
          exact List.mem_cons_self _ _
        · exact Or.inr (expand_fold_mono g goal cur (cur.position :: closed)
            ACTION_DELTAS open2 _ _ ⟨nd, h2, hpos, hg⟩)

theorem pathTo_zero {g : Config} {start p : Pos} (h : PathTo g start p 0) :
    p = start := by
  cases h
  rfl

/-- The search loop, given the full invariant and enough fuel, returns
the first action of a path realising the shortest distance to a
reachable goal. -/
theorem a_star_loop_opt (g : Config) (start goal : Pos)
    (hreach : ReachableCell g start goal) (hne : start ≠ goal) :
    ∀ (fuel : Nat) (open_list : List ANode) (closed : List Pos),
      AStarFull g start goal open_list closed →
      g.L * g.H + 2 ≤ fuel + closed.length →
      ∃ a ad, a_star_loop g goal fuel open_list closed = some a ∧
        ad ∈ ACTION_DELTAS ∧ ad.1 = a ∧
        g.is_valid_pos (start.1 + ad.2.1, start.2 + ad.2.2) = true ∧
        PathTo g (start.1 + ad.2.1, start.2 + ad.2.2) goal
          (distS g start goal - 1) := by
  intro fuel
  induction fuel with
  | zero =>
    intro open_list closed hf hb
    exfalso
    have := closed_length_le g start closed hf.inv.closed_nodup
      hf.inv.closed_ok
    omega
  | succ fuel ih =>
    intro open_list closed hf hb
    cases hpop : heappop open_list with
    | none =>
      exfalso
      have hempty := (heappop_eq_none_iff open_list).mp hpop
      have hpath := pathTo_distS hreach
      rcases astar_frontier g start goal open_list closed hf hpath with
        hcl | ⟨nd, hnd, -⟩
      · exact hf.gnc hcl
      · rw [hempty] at hnd
        exact absurd hnd (List.not_mem_nil _)
    | some pr =>
      obtain ⟨cur, open2⟩ := pr
      by_cases hg : cur.position = goal
      · have hperm := heappop_perm open_list cur open2 hpop
        have hcurmem : cur ∈ open_list :=
          hperm.mem_iff.mp (List.mem_cons_self _ _)
        have hchain := hf.chains cur hcurmem
        have hd1 : distS g start goal ≤ cur.gcost := by
          have hcp := chain_path cur hchain
          rw [hg] at hcp
          exact distS_le hcp
        have hd2 : cur.gcost ≤ distS g start goal :=
          pop_goal_opt g start goal open_list open2 closed cur hf hpop hg _
            (pathTo_distS hreach)
        have hdg : cur.gcost = distS g start goal := le_antisymm hd2 hd1
        have h0 : 0 < distS g start goal := by
          rcases Nat.eq_zero_or_pos (distS g start goal) with h | h
          · exfalso
            have hp0 := pathTo_distS hreach
            rw [h] at hp0
            exact hne (pathTo_zero hp0).symm
          · exact h
        have hgc : 0 < cur.gcost := by omega
        obtain ⟨a, ad, hlast, hadm, had1, hvs, hrest⟩ :=
          chain_first_action cur hchain hgc
        refine ⟨a, ad, ?_, hadm, had1, hvs, ?_⟩
        · unfold a_star_loop
          rw [hpop]
          dsimp only
          rw [if_pos hg]
          have hlen := chain_path_len cur hchain
          have hnem : (path_actions cur).isEmpty = false := by
            cases hpa : path_actions cur with
            | nil =>
              rw [hpa] at hlen
              simp at hlen
              omega
            | cons x xs => rfl
          simp [hnem, hlast]
        · rw [hg, hdg] at hrest
          exact hrest
      · have hstep := astar_pop_step g start goal open_list open2 closed cur
          hf hpop hg
        obtain ⟨a, ad, heval, h1, h2, h3, h4⟩ :=
          ih (expand g goal cur (cur.position :: closed) open2)
            (cur.position :: closed) hstep
            (by simp only [List.length_cons]; omega)
        refine ⟨a, ad, ?_, h1, h2, h3, h4⟩
        unfold a_star_loop
        rw [hpop]
        dsimp only
        rw [if_neg hg]
        exact heval

/-- An explicit 8-move path on the 5×5 grid from (0,0) to (4,4). -/
theorem path55 : PathTo g55 ((0:Int), (0:Int)) ((4:Int), (4:Int)) 8 := by
  have p0 : PathTo g55 ((0:Int), (0:Int)) ((0:Int), (0:Int)) 0 := PathTo.refl
  have p1 : PathTo g55 ((0:Int), (0:Int)) ((1:Int), (0:Int)) 1 :=
    p0.snoc ⟨(2, (1, 0)), by decide, by decide⟩ (by decide)
  have p2 : PathTo g55 ((0:Int), (0:Int)) ((2:Int), (0:Int)) 2 :=
    p1.snoc ⟨(2, (1, 0)), by decide, by decide⟩ (by decide)
  have p3 : PathTo g55 ((0:Int), (0:Int)) ((3:Int), (0:Int)) 3 :=
    p2.snoc ⟨(2, (1, 0)), by decide, by decide⟩ (by decide)
  have p4 : PathTo g55 ((0:Int), (0:Int)) ((4:Int), (0:Int)) 4 :=
    p3.snoc ⟨(2, (1, 0)), by decide, by decide⟩ (by decide)
  have p5 : PathTo g55 ((0:Int), (0:Int)) ((4:Int), (1:Int)) 5 :=
    p4.snoc ⟨(4, (0, 1)), by decide, by decide⟩ (by decide)
  have p6 : PathTo g55 ((0:Int), (0:Int)) ((4:Int), (2:Int)) 6 :=
    p5.snoc ⟨(4, (0, 1)), by decide, by decide⟩ (by decide)
  have p7 : PathTo g55 ((0:Int), (0:Int)) ((4:Int), (3:Int)) 7 :=
    p6.snoc ⟨(4, (0, 1)), by decide, by decide⟩ (by decide)
  exact p7.snoc ⟨(4, (0, 1)), by decide, by decide⟩ (by decide)

/-- The full invariant holds for the initial open list and closed set of
`a_star_search`. -/
theorem astar_init_full (g : Config) (start goal : Pos) :
    AStarFull g start goal
      [ANode.mk start none none 0 (manhattan_distance start goal)
        (manhattan_distance start goal)] [] := by
  refine ⟨⟨?_, ?_, by simp, ?_, List.nodup_nil, ?_⟩, ?_, ?_, ?_, ?_, ?_, ?_⟩
  · intro nd hnd
    rw [List.mem_singleton.mp hnd]
    exact ⟨0, PathTo.refl⟩
  · intro nd hnd
    rw [List.mem_singleton.mp hnd]
    exact Or.inr rfl
  · intro nd _
    exact List.not_mem_nil _
  · intro p hp
    exact absurd hp (List.not_mem_nil _)
  · intro i hi0 hilen _
    simp at hilen
    omega
  · intro nd hnd
    rw [List.mem_singleton.mp hnd]
    exact ⟨rfl, rfl, rfl⟩
  · intro nd hnd
    rw [List.mem_singleton.mp hnd]
    show manhattan_distance start goal = 0 + manhattan_distance start goal
    omega
  · exact Or.inr ⟨_, List.mem_singleton_self _, rfl, rfl⟩
  · exact List.not_mem_nil _
  · intro p hp
    exact absurd hp (List.not_mem_nil _)

/-- C2: for every grid and distinct, connected start and goal,
`a_star_search` returns the recorded first action of a path whose first
step is valid and whose remainder realises the shortest distance minus
one — i.e. the first action of a shortest obstacle-avoiding path (and
`distS` is minimal among all path lengths).  On the obstacle-free 5×5
grid from (0,0) to (4,4) the returned action is South (2), which is not
Stay and strictly decreases the Manhattan distance to the goal, and the
shortest-path length is exactly 8, the Manhattan distance. -/
theorem a_star_first_action_optimal :
    (∀ (g : Config) (start goal : Pos), start ≠ goal →
      ReachableCell g start goal →
      ∃ a ad, a_star_search start goal g = some a ∧
        ad ∈ ACTION_DELTAS ∧ ad.1 = a ∧
        g.is_valid_pos (start.1 + ad.2.1, start.2 + ad.2.2) = true ∧
        PathTo g (start.1 + ad.2.1, start.2 + ad.2.2) goal
          (distS g start goal - 1) ∧
        0 < distS g start goal ∧
        (∀ m, PathTo g start goal m → distS g start goal ≤ m)) ∧
    (a_star_search ((0:Int), (0:Int)) ((4:Int), (4:Int)) g55 = some 2 ∧
      (2 : Nat) ≠ ACTION_STAY ∧
      (∀ ad ∈ ACTION_DELTAS, ad.1 = 2 →
        manhattan_distance ((0:Int) + ad.2.1, (0:Int) + ad.2.2)
            ((4:Int), (4:Int)) <
          manhattan_distance ((0:Int), (0:Int)) ((4:Int), (4:Int))) ∧
      distS g55 ((0:Int), (0:Int)) ((4:Int), (4:Int)) = 8) := by
  constructor
  · intro g start goal hne hreach
    have h0 : 0 < distS g start goal := by
      rcases Nat.eq_zero_or_pos (distS g start goal) with h | h
      · exfalso
        have hp0 := pathTo_distS hreach
        rw [h] at hp0
        exact hne (pathTo_zero hp0).symm
      · exact h
    obtain ⟨a, ad, heval, h1, h2, h3, h4⟩ :=
      a_star_loop_opt g start goal hreach hne (g.L * g.H + 2)
        [ANode.mk start none none 0 (manhattan_distance start goal)
          (manhattan_distance start goal)] []
        (astar_init_full g start goal) (by simp)
    refine ⟨a, ad, ?_, h1, h2, h3, h4, h0, fun m hm => distS_le hm⟩
    unfold a_star_search
    exact heval
  · refine ⟨by decide, by decide, by decide, ?_⟩
    have hle : distS g55 ((0:Int), (0:Int)) ((4:Int), (4:Int)) ≤ 8 :=
      distS_le path55
    have hge : 8 ≤ distS g55 ((0:Int), (0:Int)) ((4:Int), (4:Int)) := by
      have hm := manhattan_le_distS ⟨8, path55⟩
      have he : manhattan_distance ((0:Int), (0:Int)) ((4:Int), (4:Int)) =
          8 := by decide
      rw [he] at hm
      exact hm
    omega

/-- Witness for C2: instantiated on the 5×5 grid with the explicit
8-move path. -/
theorem a_star_first_action_optimal_witness :
    ∃ a ad, a_star_search ((0:Int), (0:Int)) ((4:Int), (4:Int)) g55 =
        some a ∧
      ad ∈ ACTION_DELTAS ∧ ad.1 = a ∧
      g55.is_valid_pos (((0:Int), (0:Int)).1 + ad.2.1,
        ((0:Int), (0:Int)).2 + ad.2.2) = true ∧
      PathTo g55 (((0:Int), (0:Int)).1 + ad.2.1,
          ((0:Int), (0:Int)).2 + ad.2.2) ((4:Int), (4:Int))
        (distS g55 ((0:Int), (0:Int)) ((4:Int), (4:Int)) - 1) ∧
      0 < distS g55 ((0:Int), (0:Int)) ((4:Int), (4:Int)) ∧
      (∀ m, PathTo g55 ((0:Int), (0:Int)) ((4:Int), (4:Int)) m →
        distS g55 ((0:Int), (0:Int)) ((4:Int), (4:Int)) ≤ m) :=
  a_star_first_action_optimal.1 g55 ((0:Int), (0:Int)) ((4:Int), (4:Int))
    (by decide) ⟨8, path55⟩

end Chicken
